import Mathlib

/-!
Verification of the cog-rendered core against its specification.

The development shallowly embeds the four core components of the repository
(`WorkerPool`, `TileManager`, `Viewport`, `ADRAAnalyzer`) as pure Lean
functions over explicit state records.  JavaScript numbers are modelled as
rationals, `Promise` objects as settle-once future cells addressed by id,
JS `Map`s as insertion-ordered association lists, and the stable
`Array.prototype.sort` as a stable insertion sort.  The source tree contains
two revisions of `TileManager`; the embedding notes for every definition
which revision it is taken from.
-/

/- The Batteries rational-arithmetic primitives are shipped `@[irreducible]`;
re-enable definitional unfolding so that concrete model states evaluate
under `decide`. -/
attribute [local semireducible] Rat.mul Rat.inv Rat.add Rat.sub

set_option maxRecDepth 16000

namespace Cog

/-! ## List and map utilities

`Array.prototype.sort` with a numeric comparator is a stable sort; any
stable sort under a total preorder produces the same output, so we embed it
as a stable insertion sort.  `keep y x = true` means an element `y` already
in the list stays in front of the newly inserted `x`. -/

def insertSorted (keep : α → α → Bool) (x : α) : List α → List α
  | [] => [x]
  | y :: ys => if keep y x then y :: insertSorted keep x ys else x :: y :: ys

def stableSortBy (keep : α → α → Bool) (l : List α) : List α :=
  l.foldl (fun acc x => insertSorted keep x acc) []

/-- Adjacent-pairs check: `r` holds between every two consecutive
elements.  Used to certify sortedness and key-distinctness of large
concrete cache states in linear time. -/
def adjacentB (r : α → α → Bool) : List α → Bool
  | [] => true
  | [_] => true
  | a :: b :: rest => r a b && adjacentB r (b :: rest)

/-- JS `Map.prototype.get`: first binding of the key. -/
def mget [DecidableEq κ] (k : κ) : List (κ × β) → Option β
  | [] => none
  | p :: ps => if p.1 = k then some p.2 else mget k ps

/-- JS `Map.prototype.set`: replace the binding in place, else append. -/
def mset [DecidableEq κ] (k : κ) (v : β) : List (κ × β) → List (κ × β)
  | [] => [(k, v)]
  | p :: ps => if p.1 = k then (k, v) :: ps else p :: mset k v ps

/-- JS `Map.prototype.delete`: drop the binding of the key. -/
def mdel [DecidableEq κ] (k : κ) : List (κ × β) → List (κ × β)
  | [] => []
  | p :: ps => if p.1 = k then ps else p :: mdel k ps

/-! ## WorkerPool (src/packages/core/src/WorkerPool.ts)

A `Promise` is modelled as a settle-once cell in `futures`, addressed by a
fresh `futureId` allocated at `process` time; `resolve`/`reject` on an
already settled cell are no-ops, exactly as for a JS promise.  `posted`
records every `worker.postMessage(task.payload, ...)` performed by
`processNext`, i.e. every dispatch of a task to an executor. -/

structure WorkerTask where
  id : String
  priority : ℚ
  payload : ℕ
  futureId : ℕ
deriving DecidableEq

inductive FutureState where
  | pending : FutureState
  | resolved : ℕ → FutureState
  | rejected : String → FutureState
deriving DecidableEq

structure PoolState where
  taskQueue : List WorkerTask
  activeTasks : List (ℕ × WorkerTask)
  workerStatus : List Bool
  futures : List (ℕ × FutureState)
  nextFutureId : ℕ
  posted : List WorkerTask
  terminated : Bool
deriving DecidableEq

namespace WorkerPool

/-- Settling a promise: only a pending cell changes state. -/
def settleFuture (fs : List (ℕ × FutureState)) (fid : ℕ) (st : FutureState) :
    List (ℕ × FutureState) :=
  fs.map (fun p => if p.1 = fid ∧ p.2 = FutureState.pending then (fid, st) else p)

/-- `this.workerStatus.findIndex(status => !status)`. -/
def firstFreeWorker : List Bool → Option ℕ
  | [] => none
  | b :: bs => if b then (firstFreeWorker bs).map (· + 1) else some 0

/-- `WorkerPool.processNext`: pop the head of the (sorted) queue onto the
first free worker and post its payload. -/
def processNext (s : PoolState) : PoolState :=
  if s.terminated then s
  else
    match firstFreeWorker s.workerStatus with
    | none => s
    | some w =>
      match s.taskQueue with
      | [] => s
      | t :: rest =>
        { s with taskQueue := rest,
                 workerStatus := s.workerStatus.set w true,
                 activeTasks := mset w t s.activeTasks,
                 posted := s.posted ++ [t] }

/-- The queue update in `WorkerPool.process`: `findIndex` on the task id,
replace in place on a hit, push otherwise. -/
def upsertTask (task : WorkerTask) : List WorkerTask → List WorkerTask
  | [] => [task]
  | t :: ts => if t.id = task.id then task :: ts else t :: upsertTask task ts

/-- `WorkerPool.process(id, payload, priority)`: create the task together
with a fresh pending promise, dedup-insert it into the queue, re-sort the
queue by descending priority (stable), then attempt dispatch.  The source
also allocates an `AbortController` per task, but the pool logic never
consults it, so it is not represented. -/
def process (s : PoolState) (id : String) (payload : ℕ) (priority : ℚ) : PoolState :=
  let task : WorkerTask :=
    { id := id, priority := priority, payload := payload, futureId := s.nextFutureId }
  let queue := upsertTask task s.taskQueue
  let queue := stableSortBy (fun y x => decide (x.priority ≤ y.priority)) queue
  processNext
    { s with taskQueue := queue,
             futures := s.futures ++ [(s.nextFutureId, FutureState.pending)],
             nextFutureId := s.nextFutureId + 1 }

/-- The `findIndex`/`splice` pair in `WorkerPool.abort`: locate the first
queued task with the id and return it with the remaining queue. -/
def removeFirstById (id : String) : List WorkerTask → Option (WorkerTask × List WorkerTask)
  | [] => none
  | t :: ts =>
    if t.id = id then some (t, ts)
    else
      match removeFirstById id ts with
      | none => none
      | some (task, rest) => some (task, t :: rest)

/-- The `for (const [key, task] of this.activeTasks.entries())` scan in
`WorkerPool.abort`: first active task carrying the id. -/
def findActive (id : String) : List (ℕ × WorkerTask) → Option WorkerTask
  | [] => none
  | p :: ps => if p.2.id = id then some p.2 else findActive id ps

/-- `WorkerPool.abort(id)`: a queued task is removed and its promise
rejected; a dispatched task keeps running (its `activeTasks` entry stays)
and only its promise is rejected; otherwise nothing happens. -/
def abort (s : PoolState) (id : String) : PoolState :=
  match removeFirstById id s.taskQueue with
  | some (task, rest) =>
    { s with taskQueue := rest,
             futures := settleFuture s.futures task.futureId (FutureState.rejected "Aborted") }
  | none =>
    match findActive id s.activeTasks with
    | some task =>
      { s with futures := settleFuture s.futures task.futureId (FutureState.rejected "Aborted") }
    | none => s

/-- The `worker.onmessage` handler installed by `spawnWorker`: on an id
match the active entry is dropped and the promise resolved (a no-op if the
promise was already rejected by `abort`); in every case the worker is freed
and dispatch re-attempted. -/
def onmessage (s : PoolState) (w : ℕ) (replyId : String) (value : ℕ) : PoolState :=
  let s1 :=
    match mget w s.activeTasks with
    | some task =>
      if task.id = replyId then
        { s with activeTasks := mdel w s.activeTasks,
                 futures := settleFuture s.futures task.futureId (FutureState.resolved value) }
      else s
    | none => s
  processNext { s1 with workerStatus := s1.workerStatus.set w false }

/-- The `worker.onerror` handler installed by `spawnWorker`. -/
def onerror (s : PoolState) (w : ℕ) (err : String) : PoolState :=
  match mget w s.activeTasks with
  | some task =>
    processNext
      { s with activeTasks := mdel w s.activeTasks,
               workerStatus := s.workerStatus.set w false,
               futures := settleFuture s.futures task.futureId (FutureState.rejected err) }
  | none => s

/-- The constructor: `maxWorkers` idle workers (the source takes
`min(navigator.hardwareConcurrency, maxWorkers)` when available; the result
of that computation is the parameter here). -/
def mkPool (maxWorkers : ℕ) : PoolState :=
  { taskQueue := [], activeTasks := [], workerStatus := List.replicate maxWorkers false,
    futures := [], nextFutureId := 0, posted := [], terminated := false }

/-- `WorkerPool.terminate`. -/
def terminate (s : PoolState) : PoolState :=
  { s with terminated := true, activeTasks := [], taskQueue := [] }

/-- The externally triggerable pool events, used to reason about arbitrary
continuations of an execution. -/
inductive PoolOp where
  | procOp : String → ℕ → ℚ → PoolOp
  | abortOp : String → PoolOp
  | messageOp : ℕ → String → ℕ → PoolOp
  | errorOp : ℕ → String → PoolOp

def stepPool (s : PoolState) : PoolOp → PoolState
  | PoolOp.procOp id payload priority => process s id payload priority
  | PoolOp.abortOp id => abort s id
  | PoolOp.messageOp w replyId value => onmessage s w replyId value
  | PoolOp.errorOp w err => onerror s w err

def runPool (s : PoolState) : List PoolOp → PoolState
  | [] => s
  | op :: ops => runPool (stepPool s op) ops

end WorkerPool

/-! ## Viewport (src/packages/core/src/Viewport.ts)

Camera state; the GPU uniform-buffer writes performed by `update()` are
outside the modelled state.  The world-to-screen direction of the transform
is the one documented in `Viewport.update`
(`Screen = (World - Center) * Zoom + Size/2`); the screen-to-world
direction is `TileManager.screenToWorld`. -/

structure Viewport where
  center : ℚ × ℚ
  zoom : ℚ
  rotation : ℚ
  size : ℚ × ℚ
  minZoom : ℚ
deriving DecidableEq

namespace Viewport

/-- The constructor defaults: `zoom = 1`, `minZoom = 0.0001`, center at the
origin, size from the constructor arguments. -/
def mkViewport (width height : ℚ) : Viewport :=
  { center := (0, 0), zoom := 1, rotation := 0, size := (width, height),
    minZoom := 1 / 10000 }

def resize (v : Viewport) (width height : ℚ) : Viewport :=
  { v with size := (width, height) }

def setCenter (v : Viewport) (x y : ℚ) : Viewport :=
  { v with center := (x, y) }

/-- `Viewport.setZoom(z)`: the source stores `z` unconditionally. -/
def setZoom (v : Viewport) (z : ℚ) : Viewport :=
  { v with zoom := z }

def move (v : Viewport) (dx dy : ℚ) : Viewport :=
  { v with center := (v.center.1 + dx, v.center.2 + dy) }

/-- `Viewport.zoomAt(factor, x, y)`: world point under the cursor from the
old state, rescale the zoom, recompute the center under the new zoom. -/
def zoomAt (v : Viewport) (factor x y : ℚ) : Viewport :=
  let worldX := (x - v.size.1 / 2) / v.zoom + v.center.1
  let worldY := (y - v.size.2 / 2) / v.zoom + v.center.2
  let zoom1 := v.zoom * factor
  { v with zoom := zoom1,
           center := (worldX - (x - v.size.1 / 2) / zoom1,
                      worldY - (y - v.size.2 / 2) / zoom1) }

/-- `TileManager.screenToWorld` (identical in both revisions). -/
def screenToWorld (v : Viewport) (sx sy : ℚ) : ℚ × ℚ :=
  ((sx - v.size.1 / 2) / v.zoom + v.center.1,
   (sy - v.size.2 / 2) / v.zoom + v.center.2)

/-- The world-to-screen transform documented in `Viewport.update`:
`Screen = (World - Center) * Zoom + Size/2`. -/
def worldToScreen (v : Viewport) (wx wy : ℚ) : ℚ × ℚ :=
  ((wx - v.center.1) * v.zoom + v.size.1 / 2,
   (wy - v.center.2) * v.zoom + v.size.2 / 2)

end Viewport

/-! ## TileManager (src/packages/core/src/TileManager.ts)

The source tree carries two revisions of `TileManager` in this file: an
earlier one in which the manager owns a single worker and consumes
`tile-decoded` messages in `handleWorkerMessage`, and a later one built on
`WorkerPool` with per-frame request collection, cancellation of
no-longer-required pending tiles and `prune` with pool aborts.  GPU objects
(textures, bind groups) are modelled as abstract numeric handles allocated
from `nextHandle`. -/

structure PyramidLevel where
  index : ℤ
  width : ℚ
  height : ℚ
  tileWidth : ℚ
  tileHeight : ℚ
deriving DecidableEq

structure BandMetadata where
  index : ℤ
  name : String
  description : String
deriving DecidableEq

structure Tile where
  id : String
  x : ℤ
  y : ℤ
  z : ℤ
  loaded : Bool
  worldX : ℚ
  worldY : ℚ
  width : ℚ
  height : ℚ
  texture : Option ℕ
  bindGroup : Option ℕ
  lastUsed : ℤ
  min? : Option ℚ
  max? : Option ℚ
deriving DecidableEq

structure TMState where
  tiles : List (String × Tile)
  tileSize : ℚ
  imageWidth : ℚ
  imageHeight : ℚ
  globalMin : ℚ
  globalMax : ℚ
  hasGlobalStats : Bool
  bandMetadata : List BandMetadata
  selectedBands : List ℕ
  levels : List PyramidLevel
  version : ℕ
  grayBindGroup : Option ℕ
  nextHandle : ℕ
deriving DecidableEq

namespace TileManager

/-- The tile key string `"{level}-{x}-{y}"`. -/
def mkKey (z x y : ℤ) : String :=
  toString z ++ "-" ++ toString x ++ "-" ++ toString y

def defaultLevel : PyramidLevel :=
  { index := 0, width := 0, height := 0, tileWidth := 0, tileHeight := 0 }

/-- `TileManager.getBestLevel` (identical in both revisions): walk the
levels finest to coarsest keeping the last index whose resolution does not
exceed `1/zoom`, break at the first one that does. -/
def goBestLevel (imageWidth targetRes : ℚ) : List PyramidLevel → ℕ → ℕ → ℕ
  | [], _, best => best
  | l :: ls, i, best =>
    if imageWidth / l.width ≤ targetRes then goBestLevel imageWidth targetRes ls (i + 1) i
    else best

def getBestLevel (s : TMState) (vp : Viewport) : ℕ :=
  if s.levels.isEmpty then 0
  else goBestLevel s.imageWidth (1 / vp.zoom) s.levels 0 0

/-- The loop condition of `getBestLevel` as a predicate on one level. -/
def levelOk (imageWidth targetRes : ℚ) (l : PyramidLevel) : Bool :=
  decide (imageWidth / l.width ≤ targetRes)

/-- The walk of `TileManager.prune` over the entries sorted by ascending
`lastUsed`: stop once the quota is reached, skip (never delete) entries
whose `lastUsed` equals the active frame timestamp, delete the rest. -/
def pruneWalk (activeTime : ℤ) (toRemove : ℕ) :
    List (String × Tile) → List (String × Tile) → ℕ → List (String × Tile)
  | [], tiles, _ => tiles
  | (k, t) :: rest, tiles, removed =>
    if toRemove ≤ removed then tiles
    else if t.lastUsed = activeTime then pruneWalk activeTime toRemove rest tiles removed
    else pruneWalk activeTime toRemove rest (mdel k tiles) (removed + 1)

/-- `CACHE_LIMIT` of the first revision of `prune` (the later revision uses
1000 with an otherwise identical body). -/
def CACHE_LIMIT : ℕ := 500

/-- `TileManager.prune(activeTime)`, first revision: no-op at or below the
limit, otherwise evict oldest-first down to `CACHE_LIMIT - 50`, never
touching a tile used in the current frame.  `Math.max(0, size - targetSize)`
coincides with truncated subtraction on ℕ. -/
def prune (s : TMState) (activeTime : ℤ) : TMState :=
  if s.tiles.length ≤ CACHE_LIMIT then s
  else
    let entries := stableSortBy (fun y x => decide (y.2.lastUsed ≤ x.2.lastUsed)) s.tiles
    let targetSize := CACHE_LIMIT - 50
    let toRemoveCount := s.tiles.length - targetSize
    { s with tiles := pruneWalk activeTime toRemoveCount entries s.tiles 0 }

/-- The decode request record posted by `TileManager.requestTile` (second
revision; the first revision posts the same fields directly to its
worker). -/
structure DecodeRequest where
  id : String
  tileX : ℚ
  tileY : ℚ
  tileZ : ℤ
  index : ℤ
  tileSize : ℚ
  bandIndices : Option (List ℕ)
deriving DecidableEq

def requestTile (s : TMState) (tile : Tile) (index : ℤ) : DecodeRequest :=
  let lvl := s.levels.getD tile.z.toNat defaultLevel
  { id := tile.id,
    tileX := (tile.x : ℚ) * lvl.tileWidth,
    tileY := (tile.y : ℚ) * lvl.tileHeight,
    tileZ := tile.z,
    index := index,
    tileSize := lvl.tileWidth,
    bandIndices := if s.selectedBands.length > 0 then some s.selectedBands else none }

structure PendingReq where
  tile : Tile
  index : ℤ
  priority : ℚ
deriving DecidableEq

/-- Per-frame accumulator threaded through the nested loops of
`getVisibleTiles` (second revision): the mutable tile map, the visible
list, the `requiredTiles` set and the collected `pendingRequests`. -/
structure FrameAcc where
  tiles : List (String × Tile)
  visible : List Tile
  required : List String
  pending : List PendingReq
deriving DecidableEq

/-- `for (let y = startY; y < endY; y++)`. -/
def intRange (lo hi : ℤ) : List ℤ :=
  (List.range (hi - lo).toNat).map (fun k => lo + (k : ℤ))

/-- The trailing `if (tile) { tile.lastUsed = currentFrameTime; if
(tile.loaded && tile.bindGroup) visibleTiles.push(tile); }` of the cell
body: refresh `lastUsed` on the (possibly just created) tile and append it
to the visible list when it is loaded and has a bind group. -/
def finishCell (key : String) (now : ℤ) (required : List String)
    (accVisible : List Tile)
    (step : List (String × Tile) × Option Tile × List PendingReq) : FrameAcc :=
  match step.2.1 with
  | none => { tiles := step.1, visible := accVisible, required := required,
              pending := step.2.2 }
  | some tile =>
    let tile1 := { tile with lastUsed := now }
    { tiles := mset key tile1 step.1,
      visible :=
        if tile1.loaded && tile1.bindGroup.isSome then accVisible ++ [tile1]
        else accVisible,
      required := required, pending := step.2.2 }

/-- The body of the innermost loop of `getVisibleTiles` (second revision):
mark the key required, create-and-queue the tile at the target level (or
re-queue a still-pending one with a recomputed priority), then
`finishCell`. -/
def visitCell (vp : Viewport) (now : ℤ) (targetLevelIndex : ℕ) (levelIndex : ℤ)
    (downscale tileW tileH : ℚ) (acc : FrameAcc) (x y : ℤ) : FrameAcc :=
  let key := mkKey levelIndex x y
  let required := acc.required ++ [key]
  let found := mget key acc.tiles
  let step :
      List (String × Tile) × Option Tile × List PendingReq :=
    if levelIndex = (targetLevelIndex : ℤ) then
      match found with
      | none =>
        let worldX := (x : ℚ) * tileW * downscale
        let worldY := (y : ℚ) * tileH * downscale
        let tile : Tile :=
          { id := key, x := x, y := y, z := levelIndex, loaded := false,
            worldX := worldX, worldY := worldY,
            width := tileW * downscale, height := tileH * downscale,
            texture := none, bindGroup := none, lastUsed := now,
            min? := none, max? := none }
        let dx := (worldX + tile.width / 2) - vp.center.1
        let dy := (worldY + tile.height / 2) - vp.center.2
        let priority := 1000000000000 - (dx * dx + dy * dy)
        (mset key tile acc.tiles, some tile,
         acc.pending ++ [{ tile := tile, index := levelIndex, priority := priority }])
      | some tile =>
        if !tile.loaded then
          let dx := (tile.worldX + tile.width / 2) - vp.center.1
          let dy := (tile.worldY + tile.height / 2) - vp.center.2
          let priority := 1000000000000 - (dx * dx + dy * dy)
          (acc.tiles, some tile,
           acc.pending ++ [{ tile := tile, index := levelIndex, priority := priority }])
        else (acc.tiles, some tile, acc.pending)
    else (acc.tiles, found, acc.pending)
  finishCell key now required acc.visible step

/-- One pyramid level of `getVisibleTiles` (second revision): map the
viewport bounding box into the level's tile grid and visit every cell in
range. -/
def visitLevel (vp : Viewport) (now : ℤ) (targetLevelIndex : ℕ) (level0Width : ℚ)
    (acc : FrameAcc) (level : PyramidLevel) : FrameAcc :=
  let levelIndex := level.index
  let downscale := level0Width / level.width
  let tileW := level.tileWidth
  let tileH := level.tileHeight
  let halfW := vp.size.1 / 2 / vp.zoom
  let halfH := vp.size.2 / 2 / vp.zoom
  let lMinX := (vp.center.1 - halfW) / downscale
  let lMaxX := (vp.center.1 + halfW) / downscale
  let lMinY := (vp.center.2 - halfH) / downscale
  let lMaxY := (vp.center.2 + halfH) / downscale
  let startX : ℤ := max 0 (Int.floor (lMinX / tileW))
  let endX : ℤ := min (Int.ceil (level.width / tileW)) (Int.ceil (lMaxX / tileW))
  let startY : ℤ := max 0 (Int.floor (lMinY / tileH))
  let endY : ℤ := min (Int.ceil (level.height / tileH)) (Int.ceil (lMaxY / tileH))
  (intRange startY endY).foldl
    (fun accY y =>
      (intRange startX endX).foldl
        (fun accX x => visitCell vp now targetLevelIndex levelIndex downscale tileW tileH accX x y)
        accY)
    acc

/-- Result of one `getVisibleTiles` frame: the returned list, the updated
manager state, the decode requests posted to the pool (already sorted by
descending priority) and the keys passed to `workerPool.abort`. -/
structure FrameResult where
  visibleTiles : List Tile
  state : TMState
  requests : List DecodeRequest
  abortedKeys : List String
deriving DecidableEq

/-- `TileManager.getVisibleTiles(viewport)` (second revision).  The
synthetic background tile is prepended whenever the gray placeholder
exists; with no levels loaded the function returns early.  After the level
loops the pending requests are posted sorted by descending priority, every
cached not-loaded tile whose key was not required this frame is aborted,
and the cache is pruned with the current frame timestamp. -/
def getVisibleTiles (s : TMState) (vp : Viewport) (currentFrameTime : ℤ) : FrameResult :=
  let background : List Tile :=
    match s.grayBindGroup with
    | some g =>
      [{ id := "background", x := 0, y := 0, z := -1, loaded := true,
         worldX := 0, worldY := 0, width := s.imageWidth, height := s.imageHeight,
         texture := none, bindGroup := some g, lastUsed := currentFrameTime,
         min? := none, max? := none }]
    | none => []
  if s.levels.isEmpty then
    { visibleTiles := background, state := s, requests := [], abortedKeys := [] }
  else
    let targetLevelIndex := getBestLevel s vp
    let sortedLevels := stableSortBy (fun y x => decide (x.index ≤ y.index)) s.levels
    let level0Width := (s.levels.getD 0 defaultLevel).width
    let acc0 : FrameAcc :=
      { tiles := s.tiles, visible := background, required := [], pending := [] }
    let acc := sortedLevels.foldl (visitLevel vp currentFrameTime targetLevelIndex level0Width) acc0
    let sortedReqs := stableSortBy (fun y x => decide (x.priority ≤ y.priority)) acc.pending
    let requests := sortedReqs.map (fun r => requestTile s r.tile r.index)
    let aborted :=
      (acc.tiles.filter (fun p => !p.2.loaded && !(acc.required.contains p.1))).map Prod.fst
    let s1 := prune { s with tiles := acc.tiles } currentFrameTime
    { visibleTiles := acc.visible, state := s1, requests := requests, abortedKeys := aborted }

/-- `TileManager.uploadTile` (first revision; the second is identical for
the modelled state): attach a fresh texture and bind group to the tile. -/
def uploadTile (s : TMState) (tile : Tile) : Tile × TMState :=
  ({ tile with texture := some s.nextHandle, bindGroup := some (s.nextHandle + 1) },
   { s with nextHandle := s.nextHandle + 2 })

/-- The messages consumed by `TileManager.handleWorkerMessage` (first
revision). -/
inductive WorkerMsg where
  | initComplete : List PyramidLevel → Option (List BandMetadata) → Option (List ℕ) → WorkerMsg
  | tileDecoded : String → Option (List ℚ) → ℚ → ℚ → WorkerMsg

/-- `TileManager.handleWorkerMessage` (first revision).  An
`init-complete` message installs the pyramid metadata; a `tile-decoded`
message is matched against the cache by id: a hit with data expands the
global stats, uploads the texture, marks the tile loaded and bumps the
version; a hit without data only marks the tile loaded; a miss leaves the
whole state untouched. -/
def handleWorkerMessage (s : TMState) (m : WorkerMsg) : TMState :=
  match m with
  | WorkerMsg.initComplete levels bandMetadata suggestedBands =>
    let s1 := { s with levels := levels,
                       imageWidth := (levels.getD 0 defaultLevel).width,
                       imageHeight := (levels.getD 0 defaultLevel).height,
                       tileSize := (levels.getD 0 defaultLevel).tileWidth }
    match bandMetadata with
    | some bm => { s1 with bandMetadata := bm, selectedBands := suggestedBands.getD [] }
    | none => s1
  | WorkerMsg.tileDecoded id data mn mx =>
    match mget id s.tiles with
    | none => s
    | some tile =>
      match data with
      | some _ =>
        let s1 :=
          if !s.hasGlobalStats then
            { s with globalMin := mn, globalMax := mx, hasGlobalStats := true }
          else
            { s with globalMin := if mn < s.globalMin then mn else s.globalMin,
                     globalMax := if mx > s.globalMax then mx else s.globalMax }
        let up := uploadTile s1 tile
        let tile1 := { up.1 with loaded := true, min? := some mn, max? := some mx }
        { up.2 with tiles := mset id tile1 up.2.tiles, version := up.2.version + 1 }
      | none =>
        { s with tiles := mset id { tile with loaded := true } s.tiles }

/-- `TileManager.handleTileDecoded` (second revision): no cache lookup —
the `.then` callback of `requestTile` hands over the tile OBJECT it
closed over, and this function updates it directly.  The global stats are
expanded, a fresh texture and bind group attached, the tile marked
loaded, and the version bumped.  The cache map observes the object
mutation only while it still binds the tile's id to that very object;
the entry is never (re-)inserted from here. -/
def handleTileDecoded (s : TMState) (tile : Tile) (data : Option (List ℚ))
    (mn mx : ℚ) : TMState :=
  match data with
  | none => s
  | some _ =>
    let s1 :=
      if !s.hasGlobalStats then
        { s with globalMin := mn, globalMax := mx, hasGlobalStats := true }
      else
        { s with globalMin := if mn < s.globalMin then mn else s.globalMin,
                 globalMax := if mx > s.globalMax then mx else s.globalMax }
    let up := uploadTile s1 tile
    let tile1 := { up.1 with loaded := true, min? := some mn, max? := some mx }
    { up.2 with
      tiles :=
        if mget tile.id up.2.tiles = some tile then mset tile.id tile1 up.2.tiles
        else up.2.tiles,
      version := up.2.version + 1 }

/-- The synchronous cleanup prefix of `TileManager.init` (second
revision): destroy every texture, clear the cache, and reset the pyramid
metadata, band selection, global stats and version.  It does NOT abort
the pool's queued or in-flight decode tasks (the subsequent `broadcast`
and metadata request do not either). -/
def init (s : TMState) : TMState :=
  { s with tiles := [], levels := [], imageWidth := 0, imageHeight := 0,
           bandMetadata := [], selectedBands := [],
           globalMin := 0, globalMax := 1, hasGlobalStats := false, version := 0 }

/-- `TileManager.setBands(bandIndices)` (second revision): destroy every
tile's resources, abort its pool task, clear the cache, reset the global
stats and bump the version.  The keys passed to `workerPool.abort` are
returned alongside the new state. -/
def setBands (s : TMState) (bandIndices : List ℕ) : TMState × List String :=
  ({ s with selectedBands := bandIndices, tiles := [],
            globalMin := 0, globalMax := 1, hasGlobalStats := false,
            version := s.version + 1 },
   s.tiles.map (fun p => p.2.id))

end TileManager

/-! ## ADRAAnalyzer (src/packages/core/src/ADRAAnalyzer.ts) -/

structure ADRAOptions where
  clipLow : ℚ
  clipHigh : ℚ
  padLow : ℚ
  padHigh : ℚ
deriving DecidableEq

namespace ADRAAnalyzer

/-- The statistics core of `ADRAAnalyzer.calculateStatistics`, applied to
the collected valid samples (the R channel of every readback pixel whose
alpha exceeds 0.5): sort ascending, clamp the clip percentages, take the
floor percentile indices with the source's `?? samples[0]` /
`?? samples[samples.length - 1]` fallbacks, pad by the percentage of the
range, and force a non-degenerate range with epsilon 0.0001.  With no
samples `currentStats` is left unchanged. -/
def calculateStatistics (samples : List ℚ) (opts : ADRAOptions) (current : ℚ × ℚ) :
    ℚ × ℚ :=
  if samples.isEmpty then current
  else
    let sorted := stableSortBy (fun y x => decide (y ≤ x)) samples
    let count := sorted.length
    let pLow := max 0 (min 100 opts.clipLow) / 100
    let pHigh := max 0 (min 100 opts.clipHigh) / 100
    let lowIndex := (Int.floor ((count : ℚ) * pLow)).toNat
    let highIndex := (Int.floor ((count : ℚ) * pHigh)).toNat
    let mn0 := (sorted[lowIndex]?).getD (sorted.getD 0 0)
    let mx0 := (sorted[highIndex]?).getD (sorted.getD (count - 1) 0)
    let range := mx0 - mn0
    let mn := mn0 - range * (opts.padLow / 100)
    let mx := mx0 + range * (opts.padHigh / 100)
    if mx ≤ mn then (mn, mn + 1 / 10000) else (mn, mx)

/-- The range computation as worded by the specification and the claim:
`lowIndex = floor(count * clipLow/100)`, `highIndex = floor(count *
clipHigh/100)`, `min = samples[lowIndex]` falling back to `samples[0]`,
`max = samples[highIndex]` falling back to the last element, pad downward
by `range*padLow/100` and upward by `range*padHigh/100`, then force
`max = min + epsilon` when `max <= min`.  Stated over the already-sorted
sample list, for comparison with `calculateStatistics`. -/
def rangeSpec (samples : List ℚ) (opts : ADRAOptions) : ℚ × ℚ :=
  let count := samples.length
  let lowIndex := (Int.floor ((count : ℚ) * opts.clipLow / 100)).toNat
  let highIndex := (Int.floor ((count : ℚ) * opts.clipHigh / 100)).toNat
  let mn0 := (samples[lowIndex]?).getD (samples.getD 0 0)
  let mx0 := (samples[highIndex]?).getD (samples.getD (count - 1) 0)
  let range := mx0 - mn0
  let mn := mn0 - range * (opts.padLow / 100)
  let mx := mx0 + range * (opts.padHigh / 100)
  if mx ≤ mn then (mn, mn + 1 / 10000) else (mn, mx)

end ADRAAnalyzer

/-! ## The second revision's decode round trip (TileManager over WorkerPool)

In the second revision `TileManager.requestTile` submits the decode
request to the pool and installs a `.then` callback that closes over the
tile OBJECT (not its key):
`data => { if (data && data.data) this.handleTileDecoded(tile, data); }`.
`TMSys` composes the two components and records, per promise, the tile
captured by that closure.  The decode-request record itself (built by
`TileManager.requestTile`) is opaque to the pool and abstracted to a
numeric payload, and the value a promise resolves with is likewise
abstract.  The `.catch` callback fires when `abort` rejects the promise
(it destroys the texture and deletes the cache entry); it is not part of
reply processing and so does not appear in `workerReply`. -/

structure TMSys where
  tm : TMState
  pool : PoolState
  callbacks : List (ℕ × Tile)
deriving DecidableEq

namespace TMSys

/-- The pool side of `TileManager.requestTile` (second revision): submit
the task under the tile's key and register the tile captured by the
`.then` closure for the freshly allocated promise. -/
def requestTile (sys : TMSys) (tile : Tile) (priority : ℚ) : TMSys :=
  { sys with
    pool := WorkerPool.process sys.pool tile.id 0 priority,
    callbacks := sys.callbacks ++ [(sys.pool.nextFutureId, tile)] }

/-- A worker reply reaching the second-revision manager: the pool's
`onmessage` matches it by id against the worker's active task and
resolves the promise; the `.then` callback then runs `handleTileDecoded`
on the captured tile exactly when that promise was still pending (a
promise already rejected by `abort` swallows the resolution) and the
reply carries decoded data. -/
def workerReply (sys : TMSys) (w : ℕ) (replyId : String)
    (data : Option (List ℚ)) (mn mx : ℚ) : TMSys :=
  let pool1 := WorkerPool.onmessage sys.pool w replyId 0
  let tm1 :=
    match mget w sys.pool.activeTasks with
    | none => sys.tm
    | some task =>
      if task.id = replyId
          ∧ mget task.futureId sys.pool.futures = some FutureState.pending then
        match mget task.futureId sys.callbacks, data with
        | some tile, some d => TileManager.handleTileDecoded sys.tm tile (some d) mn mx
        | _, _ => sys.tm
      else sys.tm
  { tm := tm1, pool := pool1, callbacks := sys.callbacks }

end TMSys

/-! ## Concrete states used by individual claims -/

/-- A `TMState` with every scalar at its construction-time default. -/
def baseTM : TMState :=
  { tiles := [], tileSize := 256, imageWidth := 0, imageHeight := 0,
    globalMin := 0, globalMax := 1, hasGlobalStats := false, bandMetadata := [],
    selectedBands := [], levels := [], version := 0, grayBindGroup := none,
    nextHandle := 0 }

/-- A cache entry that only carries a `lastUsed` stamp. -/
def pruneTile (lu : ℤ) : Tile :=
  { id := "", x := 0, y := 0, z := 0, loaded := false, worldX := 0, worldY := 0,
    width := 0, height := 0, texture := none, bindGroup := none, lastUsed := lu,
    min? := none, max? := none }

/-- A key of length `i`: trivially injective in `i`, which certifies key
distinctness of large concrete caches without string-order reasoning. -/
def repKey (i : ℕ) : String :=
  String.mk (List.replicate i 'a')

/-- 501 cached tiles all touched in the current frame (timestamp 7). -/
def allActive501 : TMState :=
  { baseTM with tiles := (List.range 501).map (fun i => (repKey i, pruneTile 7)) }

/-- The eviction scenario of the specification: 510 tiles, distinct
ascending stamps `0..498` and the 11 most recent at the active stamp
1000. -/
def lruScenario510 : TMState :=
  { baseTM with tiles := (List.range 510).map (fun i =>
      (toString (1000 + i), pruneTile (if i < 499 then (i : ℤ) else 1000))) }

/-- A composed state whose in-flight task for "t" has already been
aborted: its promise is rejected, so a later reply must be discarded. -/
def c5Aborted : TMSys :=
  { tm := baseTM,
    pool := WorkerPool.abort (WorkerPool.process (WorkerPool.mkPool 1) "t" 0 1) "t",
    callbacks := [] }

/-- A pending tile at key `"0-0-0"`, as created by the visibility pass of
the second revision. -/
def c5PendingTile : Tile :=
  { id := "0-0-0", x := 0, y := 0, z := 0, loaded := false, worldX := 0, worldY := 0,
    width := 256, height := 256, texture := none, bindGroup := none, lastUsed := 3,
    min? := none, max? := none }

/-- The C5 scenario, step 0: the pending tile is cached, one idle
worker. -/
def c5Start : TMSys :=
  { tm := { baseTM with tiles := [("0-0-0", c5PendingTile)] },
    pool := WorkerPool.mkPool 1, callbacks := [] }

/-- Step 1: its decode request is submitted and dispatched. -/
def c5Dispatched : TMSys := TMSys.requestTile c5Start c5PendingTile 5

/-- Step 2: `init` clears the cache — without aborting the pool's
in-flight task, whose promise stays pending. -/
def c5AfterInit : TMSys := { c5Dispatched with tm := TileManager.init c5Dispatched.tm }

/-- Step 3: the worker's reply for the no-longer-cached key arrives. -/
def c5Reply : TMSys := TMSys.workerReply c5AfterInit 0 "0-0-0" (some [1]) 5 9

/-- The LOD fixture of the specification: level widths
`[4096, 2048, 1024, 512]` with `imageWidth = 4096`. -/
def lodLevels : List PyramidLevel :=
  [{ index := 0, width := 4096, height := 4096, tileWidth := 256, tileHeight := 256 },
   { index := 1, width := 2048, height := 2048, tileWidth := 256, tileHeight := 256 },
   { index := 2, width := 1024, height := 1024, tileWidth := 256, tileHeight := 256 },
   { index := 3, width := 512, height := 512, tileWidth := 256, tileHeight := 256 }]

def lodTM : TMState :=
  { baseTM with imageWidth := 4096, imageHeight := 4096, levels := lodLevels }

def vpAtZoom (z : ℚ) : Viewport :=
  { center := (0, 0), zoom := z, rotation := 0, size := (800, 600), minZoom := 1 / 10000 }

/-- The resolution of level `j` as used by `getBestLevel`:
`imageWidth / levels[j].width`. -/
abbrev resAt (s : TMState) (j : ℕ) : ℚ :=
  s.imageWidth / (s.levels.getD j TileManager.defaultLevel).width

/-- Index `i` is within range and every level up to it has resolution
within the target `1/zoom` (the claim's characterisation of the value
returned by `getBestLevel`). -/
abbrev prefixGood (s : TMState) (vp : Viewport) (i : ℕ) : Prop :=
  i < s.levels.length ∧ ∀ j ≤ i, resAt s j ≤ 1 / vp.zoom

/-- A future id the pool has never seen in its queue, its active map or a
`postMessage`, and that is older than the allocation counter.  Used to show
aborted queued tasks are never dispatched. -/
def PoolState.untouched (s : PoolState) (fid : ℕ) : Prop :=
  fid ∉ s.taskQueue.map WorkerTask.futureId ∧
  fid ∉ s.activeTasks.map (fun p => p.2.futureId) ∧
  fid ∉ s.posted.map WorkerTask.futureId ∧
  fid < s.nextFutureId

/-! ## Shared lemmas about the list and map utilities -/

theorem perm_insertSorted (keep : α → α → Bool) (x : α) :
    ∀ l : List α, List.Perm (insertSorted keep x l) (x :: l) := by
  intro l
  induction l with
  | nil => simp [insertSorted]
  | cons y ys ih =>
    simp only [insertSorted]
    by_cases h : keep y x = true
    · simp only [h, if_true]
      exact (ih.cons y).trans (List.Perm.swap x y ys)
    · simp [h]

theorem stableSortBy_perm_aux (keep : α → α → Bool) :
    ∀ (l acc : List α),
      List.Perm (l.foldl (fun a x => insertSorted keep x a) acc) (acc ++ l) := by
  intro l
  induction l with
  | nil => intro acc; simp
  | cons x xs ih =>
    intro acc
    have h1 : List.Perm (xs.foldl (fun a y => insertSorted keep y a) (insertSorted keep x acc))
        (insertSorted keep x acc ++ xs) := ih _
    have h2 : List.Perm (insertSorted keep x acc ++ xs) ((x :: acc) ++ xs) :=
      (perm_insertSorted keep x acc).append_right xs
    have h3 : List.Perm ((x :: acc) ++ xs) (acc ++ x :: xs) := List.perm_middle.symm
    exact (h1.trans h2).trans h3

theorem stableSortBy_perm (keep : α → α → Bool) (l : List α) :
    List.Perm (stableSortBy keep l) l :=
  stableSortBy_perm_aux keep l []

theorem mem_stableSortBy {keep : α → α → Bool} {l : List α} {a : α} :
    a ∈ stableSortBy keep l ↔ a ∈ l :=
  (stableSortBy_perm keep l).mem_iff

theorem insertSorted_of_all (keep : α → α → Bool) (x : α) :
    ∀ l : List α, (∀ y ∈ l, keep y x = true) → insertSorted keep x l = l ++ [x] := by
  intro l
  induction l with
  | nil => intro _; rfl
  | cons y ys ih =>
    intro h
    simp only [insertSorted, h y (by simp), if_true]
    rw [ih (fun z hz => h z (by simp [hz]))]
    rfl

theorem sortAux_of_pairwise (keep : α → α → Bool) :
    ∀ (l acc : List α), (acc ++ l).Pairwise (fun a b => keep a b = true) →
      l.foldl (fun a x => insertSorted keep x a) acc = acc ++ l := by
  intro l
  induction l with
  | nil => intro acc _; simp
  | cons x xs ih =>
    intro acc h
    have hx : ∀ y ∈ acc, keep y x = true := by
      intro y hy
      exact (List.pairwise_append.mp h).2.2 y hy x (by simp)
    calc (x :: xs).foldl (fun a y => insertSorted keep y a) acc
        = xs.foldl (fun a y => insertSorted keep y a) (insertSorted keep x acc) := rfl
      _ = xs.foldl (fun a y => insertSorted keep y a) (acc ++ [x]) := by
            rw [insertSorted_of_all keep x acc hx]
      _ = (acc ++ [x]) ++ xs := by
            refine ih (acc ++ [x]) ?_
            simpa using h
      _ = acc ++ x :: xs := by simp

theorem stableSortBy_of_pairwise (keep : α → α → Bool) (l : List α)
    (h : l.Pairwise (fun a b => keep a b = true)) : stableSortBy keep l = l := by
  simpa using sortAux_of_pairwise keep l [] (by simpa using h)

theorem mget_mset_self [DecidableEq κ] (k : κ) (v : β) :
    ∀ l : List (κ × β), mget k (mset k v l) = some v := by
  intro l
  induction l with
  | nil => simp [mget, mset]
  | cons p ps ih =>
    by_cases h : p.1 = k
    · simp [mset, mget, h]
    · simp [mset, mget, h, ih]

theorem mget_mset_ne [DecidableEq κ] {k k' : κ} (v : β) (h : k' ≠ k) :
    ∀ l : List (κ × β), mget k' (mset k v l) = mget k' l := by
  intro l
  have hkk : ¬(k = k') := fun h' => h h'.symm
  induction l with
  | nil => simp [mget, mset, hkk]
  | cons p ps ih =>
    by_cases hp : p.1 = k
    · have hpk : ¬(p.1 = k') := by rw [hp]; exact hkk
      simp [mset, mget, hp, hkk, hpk]
    · by_cases hp' : p.1 = k'
      · simp [mset, mget, hp, hp', h]
      · simp [mset, mget, hp, hp', ih]

theorem mget_mdel_ne [DecidableEq κ] {k k' : κ} (h : k' ≠ k) :
    ∀ l : List (κ × β), mget k' (mdel k l) = mget k' l := by
  intro l
  have hkk : ¬(k = k') := fun h' => h h'.symm
  induction l with
  | nil => simp [mget, mdel]
  | cons p ps ih =>
    by_cases hp : p.1 = k
    · have hpk : ¬(p.1 = k') := by rw [hp]; exact hkk
      simp [mdel, mget, hp, hpk, hkk]
    · by_cases hp' : p.1 = k'
      · simp [mdel, mget, hp, hp', h]
      · simp [mdel, mget, hp, hp', ih]

theorem length_mdel [DecidableEq κ] {k : κ} {v : β} :
    ∀ l : List (κ × β), mget k l = some v → (mdel k l).length + 1 = l.length := by
  intro l
  induction l with
  | nil => intro h; simp [mget] at h
  | cons p ps ih =>
    intro h
    by_cases hp : p.1 = k
    · simp [mdel, hp]
    · simp only [mget, hp, if_neg, ite_false] at h
      simp [mdel, hp, ih h]

theorem mem_mdel [DecidableEq κ] {k : κ} {p : κ × β} :
    ∀ l : List (κ × β), p ∈ mdel k l → p ∈ l := by
  intro l
  induction l with
  | nil => simp [mdel]
  | cons q qs ih =>
    intro h
    by_cases hq : q.1 = k
    · simp only [mdel, hq, if_true] at h
      exact List.mem_cons_of_mem q h
    · simp only [mdel, hq, ite_false] at h
      rcases List.mem_cons.mp h with h | h
      · exact h ▸ List.mem_cons_self q qs
      · exact List.mem_cons_of_mem q (ih h)

theorem mget_eq_of_mem_nodup [DecidableEq κ] {k : κ} {v : β} :
    ∀ l : List (κ × β), (l.map Prod.fst).Nodup → (k, v) ∈ l → mget k l = some v := by
  intro l
  induction l with
  | nil => simp
  | cons p ps ih =>
    intro hnd hm
    rcases List.mem_cons.mp hm with h | h
    · simp [mget, ← h]
    · have hne : p.1 ≠ k := by
        intro hk
        have : p.1 ∈ ps.map Prod.fst :=
          List.mem_map.mpr ⟨(k, v), h, hk.symm⟩
        exact (List.nodup_cons.mp (by simpa using hnd)).1 this
      simp only [mget, hne, ite_false]
      exact ih (List.nodup_cons.mp (by simpa using hnd)).2 h

theorem countP_filter_eq_singleton {p : α → Bool} :
    ∀ l : List α, l.countP p = 1 → ∀ x ∈ l, p x = true → l.filter p = [x] := by
  intro l
  induction l with
  | nil => simp
  | cons y ys ih =>
    intro hc x hx hpx
    by_cases hy : p y = true
    · have hzero : ∀ a ∈ ys, p a = false := by
        rw [List.countP_cons] at hc; simp [hy] at hc; exact hc
      have hnone : ys.filter p = [] := by
        refine List.filter_eq_nil_iff.mpr ?_
        intro a ha hpa
        have h0 := hzero a ha
        simp [hpa] at h0
      rcases List.mem_cons.mp hx with h | h
      · subst h
        rw [List.filter_cons_of_pos hpx, hnone]
      · exfalso
        have h0 := hzero x h
        simp [hpx] at h0
    · have hc' : ys.countP p = 1 := by
        rw [List.countP_cons] at hc; simpa [hy] using hc
      rcases List.mem_cons.mp hx with h | h
      · exact absurd (h ▸ hpx) (by simp [hy])
      · rw [List.filter_cons_of_neg (by simp [hy])]
        exact ih hc' x h hpx

theorem mem_mset [DecidableEq κ] {k : κ} {v : β} {p : κ × β} :
    ∀ l : List (κ × β), p ∈ mset k v l → p ∈ l ∨ p = (k, v) := by
  intro l
  induction l with
  | nil => intro h; simp [mset] at h; exact Or.inr h
  | cons q qs ih =>
    intro h
    by_cases hq : q.1 = k
    · simp only [mset, hq, if_true] at h
      rcases List.mem_cons.mp h with h | h
      · exact Or.inr h
      · exact Or.inl (List.mem_cons_of_mem q h)
    · simp only [mset, hq, ite_false] at h
      rcases List.mem_cons.mp h with h | h
      · exact Or.inl (h ▸ List.mem_cons_self q qs)
      · rcases ih h with h | h
        · exact Or.inl (List.mem_cons_of_mem q h)
        · exact Or.inr h

theorem mget_append_left [DecidableEq κ] {k : κ} {v : β} :
    ∀ l l' : List (κ × β), mget k l = some v → mget k (l ++ l') = some v := by
  intro l l'
  induction l with
  | nil => intro h; simp [mget] at h
  | cons p ps ih =>
    intro h
    by_cases hp : p.1 = k
    · simp only [mget, hp, if_true] at h ⊢
      exact h
    · simp only [mget, hp, ite_false] at h ⊢
      exact ih h

/-- Invariant-propagation along a fold. -/
theorem foldl_inv (Inv : β → Prop) (f : β → α → β)
    (h : ∀ b a, Inv b → Inv (f b a)) :
    ∀ (l : List α) (b : β), Inv b → Inv (l.foldl f b) := by
  intro l
  induction l with
  | nil => intro b hb; exact hb
  | cons x xs ih => intro b hb; exact ih (f b x) (h b x hb)

theorem adjacentB_head (r : α → α → Bool)
    (htrans : ∀ a b c, r a b = true → r b c = true → r a c = true) :
    ∀ (l : List α) (x : α), adjacentB r (x :: l) = true → ∀ y ∈ l, r x y = true := by
  intro l
  induction l with
  | nil => simp
  | cons b rest ih =>
    intro x hadj y hy
    have hxb : r x b = true := by
      simp only [adjacentB, Bool.and_eq_true] at hadj
      exact hadj.1
    have hrest : adjacentB r (b :: rest) = true := by
      simp only [adjacentB, Bool.and_eq_true] at hadj
      exact hadj.2
    rcases List.mem_cons.mp hy with h | h
    · rw [h]; exact hxb
    · exact htrans x b y hxb (ih b hrest y h)

theorem pairwise_of_adjacentB (r : α → α → Bool)
    (htrans : ∀ a b c, r a b = true → r b c = true → r a c = true) :
    ∀ l : List α, adjacentB r l = true → l.Pairwise (fun a b => r a b = true) := by
  intro l
  induction l with
  | nil => intro _; exact List.Pairwise.nil
  | cons x rest ih =>
    intro hadj
    have hrest : adjacentB r rest = true := by
      cases rest with
      | nil => rfl
      | cons b rs =>
        simp only [adjacentB, Bool.and_eq_true] at hadj
        exact hadj.2
    exact List.Pairwise.cons (adjacentB_head r htrans rest x hadj) (ih hrest)

theorem repKey_injective : Function.Injective repKey := by
  intro a b h
  have h2 := congrArg (fun s : String => s.data.length) h
  simpa [repKey] using h2

theorem allActive501_keys_nodup : (allActive501.tiles.map Prod.fst).Nodup := by
  have hmap : allActive501.tiles.map Prod.fst = (List.range 501).map repKey := by
    simp [allActive501, baseTM, List.map_map]
  rw [hmap]
  exact (List.nodup_range 501).map repKey_injective

theorem takeWhile_length_le (p : α → Bool) :
    ∀ l : List α, (l.takeWhile p).length ≤ l.length := by
  intro l
  induction l with
  | nil => simp
  | cons x xs ih =>
    by_cases h : p x = true
    · simpa [List.takeWhile, h] using ih
    · simp [List.takeWhile, h]

theorem takeWhile_pred_of_lt (p : α → Bool) (d : α) :
    ∀ (l : List α) (i : ℕ), i < (l.takeWhile p).length → p (l.getD i d) = true := by
  intro l
  induction l with
  | nil => simp
  | cons x xs ih =>
    intro i hi
    by_cases h : p x = true
    · cases i with
      | zero => simpa using h
      | succ j =>
        simp only [List.takeWhile, h, List.length_cons] at hi
        simpa using ih j (by simpa using Nat.lt_of_succ_lt_succ (by simpa using hi))
    · simp [List.takeWhile, h] at hi

theorem takeWhile_boundary (p : α → Bool) (d : α) :
    ∀ l : List α, (l.takeWhile p).length < l.length →
      p (l.getD (l.takeWhile p).length d) = false := by
  intro l
  induction l with
  | nil => simp
  | cons x xs ih =>
    intro hlt
    by_cases h : p x = true
    · simp only [List.takeWhile, h, List.length_cons] at hlt ⊢
      simpa using ih (by omega)
    · have hx : p x = false := Bool.eq_false_iff.mpr h
      simp [List.takeWhile, hx]

namespace WorkerPool

theorem firstFreeWorker_of_all_busy :
    ∀ l : List Bool, (∀ b ∈ l, b = true) → firstFreeWorker l = none := by
  intro l
  induction l with
  | nil => intro _; rfl
  | cons b bs ih =>
    intro h
    have hb : b = true := h b (by simp)
    simp only [firstFreeWorker, hb, if_true]
    rw [ih (fun c hc => h c (by simp [hc]))]
    rfl

theorem processNext_of_all_busy {s : PoolState}
    (h : ∀ b ∈ s.workerStatus, b = true) : processNext s = s := by
  unfold processNext
  rw [firstFreeWorker_of_all_busy s.workerStatus h]
  by_cases ht : s.terminated <;> simp [ht]

theorem self_mem_upsertTask (task : WorkerTask) :
    ∀ l : List WorkerTask, task ∈ upsertTask task l := by
  intro l
  induction l with
  | nil => simp [upsertTask]
  | cons t ts ih =>
    by_cases h : t.id = task.id
    · simp [upsertTask, h]
    · simp only [upsertTask, h, ite_false]
      exact List.mem_cons_of_mem t ih

theorem mem_upsertTask {task t : WorkerTask} :
    ∀ l : List WorkerTask, t ∈ upsertTask task l → t = task ∨ t ∈ l := by
  intro l
  induction l with
  | nil => intro h; simp [upsertTask] at h; exact Or.inl h
  | cons u us ih =>
    intro h
    by_cases hu : u.id = task.id
    · simp only [upsertTask, hu, if_true] at h
      rcases List.mem_cons.mp h with h | h
      · exact Or.inl h
      · exact Or.inr (List.mem_cons_of_mem u h)
    · simp only [upsertTask, hu, ite_false] at h
      rcases List.mem_cons.mp h with h | h
      · exact Or.inr (h ▸ List.mem_cons_self u us)
      · rcases ih h with h | h
        · exact Or.inl h
        · exact Or.inr (List.mem_cons_of_mem u h)

theorem upsertTask_of_all_ne (task : WorkerTask) :
    ∀ l : List WorkerTask, (∀ t ∈ l, ¬(t.id = task.id)) →
      upsertTask task l = l ++ [task] := by
  intro l
  induction l with
  | nil => intro _; rfl
  | cons t ts ih =>
    intro h
    have ht : ¬(t.id = task.id) := h t (by simp)
    simp only [upsertTask, ht, ite_false, List.cons_append, List.cons.injEq, true_and]
    exact ih (fun u hu => h u (by simp [hu]))

theorem countP_upsertTask_of_mem (task : WorkerTask) {id : String}
    (hid : task.id = id) :
    ∀ l : List WorkerTask, (∃ t ∈ l, t.id = id) →
      (upsertTask task l).countP (fun t => decide (t.id = id))
        = l.countP (fun t => decide (t.id = id)) := by
  intro l
  induction l with
  | nil => rintro ⟨t, ht, _⟩; simp at ht
  | cons u us ih =>
    rintro ⟨t, ht, htid⟩
    by_cases hu : u.id = task.id
    · simp [upsertTask, hu, List.countP_cons, hid]
    · simp only [upsertTask, hu, ite_false]
      have huid : ¬(u.id = id) := by rw [← hid]; exact hu
      have hmem : ∃ t ∈ us, t.id = id := by
        rcases List.mem_cons.mp ht with h | h
        · exact absurd (h ▸ htid) huid
        · exact ⟨t, h, htid⟩
      simp [List.countP_cons, huid, ih hmem]

theorem removeFirstById_mem_rest {id : String} {task : WorkerTask} :
    ∀ {l rest : List WorkerTask}, removeFirstById id l = some (task, rest) →
      ∀ t ∈ rest, t ∈ l := by
  intro l
  induction l with
  | nil => intro rest h; simp [removeFirstById] at h
  | cons u us ih =>
    intro rest h t ht
    by_cases hu : u.id = id
    · simp only [removeFirstById, hu, if_true, Option.some.injEq, Prod.mk.injEq] at h
      exact List.mem_cons_of_mem u (h.2 ▸ ht)
    · simp only [removeFirstById, hu, ite_false] at h
      cases hrec : removeFirstById id us with
      | none => rw [hrec] at h; simp at h
      | some pr =>
        rw [hrec] at h
        rcases pr with ⟨task1, rest1⟩
        simp only [Option.map_some, Option.some.injEq, Prod.mk.injEq] at h
        obtain ⟨h1, h2⟩ := h
        rw [← h2] at ht
        rcases List.mem_cons.mp ht with h3 | h3
        · exact h3 ▸ List.mem_cons_self u us
        · exact List.mem_cons_of_mem u (ih (by rw [hrec, h1]) t h3)

/-- `processNext` either leaves the pool unchanged or dispatches the head
of the queue onto some free worker. -/
theorem processNext_spec (s : PoolState) :
    processNext s = s ∨
    ∃ w t rest, s.taskQueue = t :: rest ∧
      processNext s =
        { s with taskQueue := rest,
                 workerStatus := s.workerStatus.set w true,
                 activeTasks := mset w t s.activeTasks,
                 posted := s.posted ++ [t] } := by
  unfold processNext
  by_cases ht : s.terminated
  · left; rw [if_pos ht]
  · rw [if_neg ht]
    cases hw : firstFreeWorker s.workerStatus with
    | none => left; rfl
    | some w =>
      cases hq : s.taskQueue with
      | nil => left; rfl
      | cons t rest => right; exact ⟨w, t, rest, rfl, rfl⟩

theorem untouched_processNext {s : PoolState} {fid : ℕ}
    (h : s.untouched fid) : (processNext s).untouched fid := by
  obtain ⟨hq, ha, hp, hn⟩ := h
  rcases processNext_spec s with heq | ⟨w, t, rest, hqq, heq⟩
  · rw [heq]; exact ⟨hq, ha, hp, hn⟩
  · have htfid : t.futureId ≠ fid := by
      intro hcontra
      apply hq
      rw [hqq]
      exact List.mem_map.mpr ⟨t, by simp, hcontra⟩
    rw [heq]
    refine ⟨?_, ?_, ?_, hn⟩
    · intro hmem
      apply hq
      rw [hqq]
      rcases List.mem_map.mp hmem with ⟨u, hu, hufid⟩
      exact List.mem_map.mpr ⟨u, by simp [hu], hufid⟩
    · intro hmem
      rcases List.mem_map.mp hmem with ⟨p, hpmem, hpfid⟩
      rcases mem_mset _ hpmem with h1 | h1
      · exact ha (List.mem_map.mpr ⟨p, h1, hpfid⟩)
      · exact htfid (by rw [← hpfid, h1])
    · intro hmem
      rcases List.mem_map.mp hmem with ⟨u, hu, hufid⟩
      rcases List.mem_append.mp hu with h1 | h1
      · exact hp (List.mem_map.mpr ⟨u, h1, hufid⟩)
      · have : u = t := by simpa using h1
        exact htfid (by rw [← hufid, this])

theorem untouched_process {s : PoolState} {fid : ℕ} {id : String} {payload : ℕ}
    {priority : ℚ} (h : s.untouched fid) : (process s id payload priority).untouched fid := by
  obtain ⟨hq, ha, hp, hn⟩ := h
  unfold process
  apply untouched_processNext
  refine ⟨?_, ha, hp, by simpa using Nat.lt_succ_of_lt hn⟩
  intro hmem
  rcases List.mem_map.mp hmem with ⟨u, hu, hufid⟩
  have hu2 := mem_stableSortBy.mp hu
  rcases mem_upsertTask _ hu2 with h1 | h1
  · subst h1
    simp only at hufid
    omega
  · exact hq (List.mem_map.mpr ⟨u, h1, hufid⟩)

theorem untouched_abort {s : PoolState} {fid : ℕ} {id : String}
    (h : s.untouched fid) : (abort s id).untouched fid := by
  obtain ⟨hq, ha, hp, hn⟩ := h
  unfold abort
  cases hr : removeFirstById id s.taskQueue with
  | none =>
    cases hf : findActive id s.activeTasks with
    | none => exact ⟨hq, ha, hp, hn⟩
    | some task => exact ⟨hq, ha, hp, hn⟩
  | some pr =>
    rcases pr with ⟨task, rest⟩
    refine ⟨?_, ha, hp, hn⟩
    intro hmem
    rcases List.mem_map.mp hmem with ⟨u, hu, hufid⟩
    exact hq (List.mem_map.mpr ⟨u, removeFirstById_mem_rest hr u hu, hufid⟩)

theorem untouched_onmessage {s : PoolState} {fid : ℕ} {w : ℕ} {replyId : String}
    {value : ℕ} (h : s.untouched fid) : (onmessage s w replyId value).untouched fid := by
  obtain ⟨hq, ha, hp, hn⟩ := h
  unfold onmessage
  apply untouched_processNext
  cases hm : mget w s.activeTasks with
  | none => exact ⟨hq, ha, hp, hn⟩
  | some task =>
    by_cases hid : task.id = replyId
    · simp only [hid, if_true]
      refine ⟨hq, ?_, hp, hn⟩
      intro hmem
      rcases List.mem_map.mp hmem with ⟨p, hpmem, hpfid⟩
      exact ha (List.mem_map.mpr ⟨p, mem_mdel _ hpmem, hpfid⟩)
    · simp only [hid, ite_false]
      exact ⟨hq, ha, hp, hn⟩

theorem untouched_onerror {s : PoolState} {fid : ℕ} {w : ℕ} {err : String}
    (h : s.untouched fid) : (onerror s w err).untouched fid := by
  obtain ⟨hq, ha, hp, hn⟩ := h
  unfold onerror
  cases hm : mget w s.activeTasks with
  | none => exact ⟨hq, ha, hp, hn⟩
  | some task =>
    apply untouched_processNext
    refine ⟨hq, ?_, hp, hn⟩
    intro hmem
    rcases List.mem_map.mp hmem with ⟨p, hpmem, hpfid⟩
    exact ha (List.mem_map.mpr ⟨p, mem_mdel _ hpmem, hpfid⟩)

theorem untouched_step {s : PoolState} {fid : ℕ} (op : PoolOp)
    (h : s.untouched fid) : (stepPool s op).untouched fid := by
  cases op with
  | procOp id payload priority => exact untouched_process h
  | abortOp id => exact untouched_abort h
  | messageOp w replyId value => exact untouched_onmessage h
  | errorOp w err => exact untouched_onerror h

theorem untouched_run {s : PoolState} {fid : ℕ} :
    ∀ ops : List PoolOp, s.untouched fid → (runPool s ops).untouched fid := by
  intro ops
  induction ops generalizing s with
  | nil => intro h; exact h
  | cons op rest ih => intro h; exact ih (untouched_step op h)

theorem mget_settleFuture_self {fs : List (ℕ × FutureState)} {fid : ℕ} {st : FutureState}
    (h : mget fid fs = some FutureState.pending) :
    mget fid (settleFuture fs fid st) = some st := by
  induction fs with
  | nil => simp [mget] at h
  | cons p ps ih =>
    by_cases hp : p.1 = fid
    · simp only [mget, hp, if_true] at h
      have hpend : p.2 = FutureState.pending := by injection h
      simp [settleFuture, mget, hp, hpend]
    · simp only [mget, hp, ite_false] at h
      have := ih h
      simp only [settleFuture, List.map] at this ⊢
      simp only [hp, false_and, if_false]
      simp [mget, hp, this]

theorem mget_settleFuture_ne {fs : List (ℕ × FutureState)} {fid k : ℕ} {st : FutureState}
    (h : k ≠ fid) : mget k (settleFuture fs fid st) = mget k fs := by
  have hfk : ¬(fid = k) := fun h' => h h'.symm
  induction fs with
  | nil => simp [settleFuture, mget]
  | cons p ps ih =>
    by_cases hp : p.1 = fid
    · by_cases hpend : p.2 = FutureState.pending
      · have hpk : ¬(p.1 = k) := by rw [hp]; exact hfk
        simp only [settleFuture, List.map] at ih ⊢
        rw [if_pos ⟨hp, hpend⟩]
        simp only [mget, hfk, hpk, ite_false]
        exact ih
      · have hno : ¬(p.1 = fid ∧ p.2 = FutureState.pending) := by
          rintro ⟨_, h2⟩; exact hpend h2
        simp only [settleFuture, List.map] at ih ⊢
        rw [if_neg hno]
        by_cases hk : p.1 = k
        · simp [mget, hk]
        · simp only [mget, hk, ite_false]
          exact ih
    · have hno : ¬(p.1 = fid ∧ p.2 = FutureState.pending) := by
        rintro ⟨h1, _⟩; exact hp h1
      simp only [settleFuture, List.map] at ih ⊢
      rw [if_neg hno]
      by_cases hk : p.1 = k
      · simp [mget, hk]
      · simp only [mget, hk, ite_false]
        exact ih

theorem settleFuture_of_not_pending {fs : List (ℕ × FutureState)} {fid : ℕ} {st : FutureState}
    (h : ∀ p ∈ fs, p.1 = fid → p.2 ≠ FutureState.pending) :
    settleFuture fs fid st = fs := by
  unfold settleFuture
  apply List.map_congr_left ?_ |>.trans (List.map_id fs)
  intro p hp
  have : ¬(p.1 = fid ∧ p.2 = FutureState.pending) := by
    rintro ⟨h1, h2⟩
    exact h p hp h1 h2
  simp [this]

theorem settleFuture_all {fs : List (ℕ × FutureState)} {fid : ℕ} {st : FutureState}
    (h : ∀ p ∈ fs, p.1 = fid → p.2 = FutureState.pending ∨ p.2 = st) :
    ∀ p ∈ settleFuture fs fid st, p.1 = fid → p.2 = st := by
  intro p hp hfid
  rcases List.mem_map.mp hp with ⟨q, hq, hmap⟩
  by_cases hc : q.1 = fid ∧ q.2 = FutureState.pending
  · rw [if_pos hc] at hmap
    rw [← hmap]
  · rw [if_neg hc] at hmap
    subst hmap
    rcases h q hq hfid with h1 | h1
    · exact absurd ⟨hfid, h1⟩ hc
    · exact h1

end WorkerPool

namespace TileManager

theorem pruneWalk_keeps_active {A : ℤ} {q : ℕ} {k : String} {t : Tile} :
    ∀ (entries tiles : List (String × Tile)) (removed : ℕ),
      (∀ p ∈ entries, p.1 = k → p.2.lastUsed = A) →
      mget k tiles = some t →
      mget k (pruneWalk A q entries tiles removed) = some t := by
  intro entries
  induction entries with
  | nil => intro tiles removed _ hget; exact hget
  | cons p rest ih =>
    intro tiles removed hall hget
    rcases p with ⟨k1, t1⟩
    unfold pruneWalk
    by_cases hstop : q ≤ removed
    · rw [if_pos hstop]; exact hget
    · rw [if_neg hstop]
      by_cases hact : t1.lastUsed = A
      · rw [if_pos hact]
        exact ih tiles removed (fun p hp hk => hall p (List.mem_cons_of_mem _ hp) hk) hget
      · rw [if_neg hact]
        have hk1 : k1 ≠ k := fun hkk => hact (hall (k1, t1) (by simp) hkk)
        refine ih (mdel k1 tiles) (removed + 1)
          (fun p hp hk => hall p (List.mem_cons_of_mem _ hp) hk) ?_
        rw [mget_mdel_ne (Ne.symm hk1)]
        exact hget

theorem pruneWalk_length {A : ℤ} {q : ℕ} :
    ∀ (entries tiles : List (String × Tile)) (removed : ℕ),
      removed ≤ q →
      (∀ p ∈ entries, mget p.1 tiles = some p.2) →
      (entries.map Prod.fst).Nodup →
      (pruneWalk A q entries tiles removed).length
        = tiles.length
          - min (q - removed) (entries.countP (fun p => decide (¬ p.2.lastUsed = A))) := by
  intro entries
  induction entries with
  | nil => intro tiles removed hle _ _; simp [pruneWalk]
  | cons p rest ih =>
    intro tiles removed hle hin hnd
    rcases p with ⟨k1, t1⟩
    unfold pruneWalk
    by_cases hstop : q ≤ removed
    · rw [if_pos hstop]
      have hz : q - removed = 0 := by omega
      simp [hz]
    · rw [if_neg hstop]
      have hnd2 := List.nodup_cons.mp (by rw [List.map_cons] at hnd; exact hnd)
      have hnd1 : k1 ∉ rest.map Prod.fst := hnd2.1
      have hndrest : (rest.map Prod.fst).Nodup := hnd2.2
      by_cases hact : t1.lastUsed = A
      · rw [if_pos hact]
        have hIH := ih tiles removed hle
          (fun p hp => hin p (List.mem_cons_of_mem _ hp)) hndrest
        rw [hIH]
        have hcnt : ((k1, t1) :: rest).countP (fun p => decide (¬ p.2.lastUsed = A))
            = rest.countP (fun p => decide (¬ p.2.lastUsed = A)) := by
          simp [List.countP_cons, hact]
        rw [hcnt]
      · rw [if_neg hact]
        have hget1 : mget k1 tiles = some t1 := hin (k1, t1) (by simp)
        have hlen := length_mdel tiles hget1
        have hrest : ∀ p ∈ rest, mget p.1 (mdel k1 tiles) = some p.2 := by
          intro p hp
          have hk : p.1 ≠ k1 := by
            intro hkk
            exact hnd1 (hkk ▸ List.mem_map.mpr ⟨p, hp, rfl⟩)
          rw [mget_mdel_ne hk]
          exact hin p (List.mem_cons_of_mem _ hp)
        have hIH := ih (mdel k1 tiles) (removed + 1) (by omega) hrest hndrest
        rw [hIH]
        have hcnt : ((k1, t1) :: rest).countP (fun p => decide (¬ p.2.lastUsed = A))
            = rest.countP (fun p => decide (¬ p.2.lastUsed = A)) + 1 := by
          simp [List.countP_cons, hact]
        rw [hcnt]
        omega

/-- `prune` never evicts a tile stamped with the active frame time. -/
theorem prune_keeps_active (s : TMState) (A : ℤ) (k : String) (t : Tile)
    (hnd : (s.tiles.map Prod.fst).Nodup)
    (hget : mget k s.tiles = some t) (hact : t.lastUsed = A) :
    mget k (prune s A).tiles = some t := by
  unfold prune
  by_cases hle : s.tiles.length ≤ CACHE_LIMIT
  · rw [if_pos hle]
    exact hget
  · rw [if_neg hle]
    dsimp only
    refine pruneWalk_keeps_active _ s.tiles 0 ?_ hget
    intro p hp hpk
    have hpm : p ∈ s.tiles := mem_stableSortBy.mp hp
    rcases p with ⟨pk, pt⟩
    dsimp only at hpk ⊢
    subst hpk
    have hval := mget_eq_of_mem_nodup s.tiles hnd hpm
    rw [hget] at hval
    have hpt : t = pt := by injection hval
    rw [← hpt]
    exact hact

/-- The number of entries `prune` leaves behind: everything except
`min(toRemove, number of non-active tiles)`. -/
theorem prune_length_formula (s : TMState) (A : ℤ)
    (hnd : (s.tiles.map Prod.fst).Nodup) (hgt : 500 < s.tiles.length) :
    (prune s A).tiles.length
      = s.tiles.length - min (s.tiles.length - 450)
          (s.tiles.countP (fun p => decide (¬p.2.lastUsed = A))) := by
  unfold prune
  rw [if_neg (by unfold CACHE_LIMIT; omega)]
  dsimp only
  have hperm := stableSortBy_perm (fun y x : String × Tile =>
    decide (y.2.lastUsed ≤ x.2.lastUsed)) s.tiles
  have hin : ∀ p ∈ stableSortBy (fun y x : String × Tile =>
      decide (y.2.lastUsed ≤ x.2.lastUsed)) s.tiles, mget p.1 s.tiles = some p.2 := by
    intro p hp
    exact mget_eq_of_mem_nodup s.tiles hnd (mem_stableSortBy.mp hp)
  have hndk : ((stableSortBy (fun y x : String × Tile =>
      decide (y.2.lastUsed ≤ x.2.lastUsed)) s.tiles).map Prod.fst).Nodup :=
    (hperm.map Prod.fst).nodup_iff.mpr hnd
  rw [pruneWalk_length _ s.tiles 0 (Nat.zero_le _) hin hndk, hperm.countP_eq]
  simp [CACHE_LIMIT]

/-- `handleTileDecoded` mutates the captured object and the stats but
never inserts a cache entry: an absent key stays absent. -/
theorem handleTileDecoded_no_insert (s : TMState) (tile : Tile) (d : List ℚ)
    (mn mx : ℚ) (k : String) (h : mget k s.tiles = none) :
    mget k (handleTileDecoded s tile (some d) mn mx).tiles = none := by
  unfold handleTileDecoded uploadTile
  dsimp only
  by_cases hst : (!s.hasGlobalStats) = true
  · rw [if_pos hst]
    dsimp only
    by_cases hk : mget tile.id s.tiles = some tile
    · rw [if_pos hk]
      by_cases hkk : k = tile.id
      · subst hkk
        rw [h] at hk
        exact absurd hk (by simp)
      · rw [mget_mset_ne _ hkk]
        exact h
    · rw [if_neg hk]
      exact h
  · rw [if_neg hst]
    dsimp only
    by_cases hk : mget tile.id s.tiles = some tile
    · rw [if_pos hk]
      by_cases hkk : k = tile.id
      · subst hkk
        rw [h] at hk
        exact absurd hk (by simp)
      · rw [mget_mset_ne _ hkk]
        exact h
    · rw [if_neg hk]
      exact h

theorem goBestLevel_eq (w t : ℚ) :
    ∀ (ls : List PyramidLevel) (i best : ℕ),
      goBestLevel w t ls i best =
        if (ls.takeWhile (levelOk w t)).length = 0 then best
        else i + (ls.takeWhile (levelOk w t)).length - 1 := by
  intro ls
  induction ls with
  | nil => intro i best; simp [goBestLevel]
  | cons l ls ih =>
    intro i best
    unfold goBestLevel
    by_cases h : w / l.width ≤ t
    · have hok : levelOk w t l = true := by simp [levelOk, h]
      rw [if_pos h, ih]
      have hlen : ((l :: ls).takeWhile (levelOk w t)).length
          = (ls.takeWhile (levelOk w t)).length + 1 := by
        simp [List.takeWhile, hok]
      rw [hlen]
      by_cases hk : (ls.takeWhile (levelOk w t)).length = 0
      · simp [hk]
      · rw [if_neg hk, if_neg (by omega)]
        omega
    · have hok : levelOk w t l = false := by simp [levelOk, h]
      rw [if_neg h]
      simp [List.takeWhile, hok]

theorem getBestLevel_eq (s : TMState) (vp : Viewport) :
    getBestLevel s vp =
      if (s.levels.takeWhile (levelOk s.imageWidth (1 / vp.zoom))).length = 0 then 0
      else (s.levels.takeWhile (levelOk s.imageWidth (1 / vp.zoom))).length - 1 := by
  unfold getBestLevel
  by_cases h : s.levels.isEmpty
  · have he : s.levels = [] := by
      cases hl : s.levels with
      | nil => rfl
      | cons a as => rw [hl] at h; simp [List.isEmpty] at h
    simp [he, h]
  · rw [if_neg h, goBestLevel_eq]
    by_cases hk : (s.levels.takeWhile (levelOk s.imageWidth (1 / vp.zoom))).length = 0
    · simp [hk]
    · rw [if_neg hk, if_neg hk]
      omega

theorem finishCell_visible (key : String) (now : ℤ) (required : List String)
    (accVisible : List Tile) (step : List (String × Tile) × Option Tile × List PendingReq) :
    ∀ t ∈ (finishCell key now required accVisible step).visible,
      t ∈ accVisible ∨ (t.loaded = true ∧ t.bindGroup.isSome = true) := by
  rcases step with ⟨tiles1, found1, pending1⟩
  intro t ht
  cases found1 with
  | none => exact Or.inl (by simpa [finishCell] using ht)
  | some tile =>
    simp only [finishCell] at ht
    by_cases hg : ({ tile with lastUsed := now } : Tile).loaded
        && ({ tile with lastUsed := now } : Tile).bindGroup.isSome
    · rw [if_pos hg] at ht
      rcases List.mem_append.mp ht with h | h
      · exact Or.inl h
      · right
        have ht1 : t = { tile with lastUsed := now } := by simpa using h
        rw [ht1]
        exact Bool.and_eq_true_iff.mp hg
    · rw [if_neg hg] at ht
      exact Or.inl ht

theorem visitCell_visible (vp : Viewport) (now : ℤ) (target : ℕ) (levelIndex : ℤ)
    (downscale tileW tileH : ℚ) (acc : FrameAcc) (x y : ℤ) :
    ∀ t ∈ (visitCell vp now target levelIndex downscale tileW tileH acc x y).visible,
      t ∈ acc.visible ∨ (t.loaded = true ∧ t.bindGroup.isSome = true) := by
  intro t ht
  unfold visitCell at ht
  exact finishCell_visible _ _ _ _ _ t ht

theorem visitLevel_visible (vp : Viewport) (now : ℤ) (target : ℕ) (level0Width : ℚ)
    (acc : FrameAcc) (level : PyramidLevel) :
    ∀ t ∈ (visitLevel vp now target level0Width acc level).visible,
      t ∈ acc.visible ∨ (t.loaded = true ∧ t.bindGroup.isSome = true) := by
  unfold visitLevel
  refine foldl_inv
    (fun a => ∀ t ∈ a.visible,
      t ∈ acc.visible ∨ (t.loaded = true ∧ t.bindGroup.isSome = true))
    _ ?_ _ acc (fun t ht => Or.inl ht)
  intro accY yy hY
  refine foldl_inv
    (fun a => ∀ t ∈ a.visible,
      t ∈ acc.visible ∨ (t.loaded = true ∧ t.bindGroup.isSome = true))
    _ ?_ _ accY hY
  intro accX xx hX t ht
  rcases visitCell_visible vp now target level.index _ _ _ accX xx yy t ht with h | h
  · rcases hX t h with h1 | h1
    · exact Or.inl h1
    · exact Or.inr h1
  · exact Or.inr h

end TileManager

namespace WorkerPool

theorem removeFirstById_eq_none {id : String} :
    ∀ l : List WorkerTask, (∀ t ∈ l, ¬(t.id = id)) →
      removeFirstById id l = none := by
  intro l
  induction l with
  | nil => intro _; rfl
  | cons t ts ih =>
    intro h
    have ht : ¬(t.id = id) := h t (by simp)
    simp only [removeFirstById, ht, ite_false]
    rw [ih (fun u hu => h u (by simp [hu]))]

theorem findActive_eq_none {id : String} :
    ∀ l : List (ℕ × WorkerTask), (∀ p ∈ l, ¬(p.2.id = id)) →
      findActive id l = none := by
  intro l
  induction l with
  | nil => intro _; rfl
  | cons p ps ih =>
    intro h
    have hp : ¬(p.2.id = id) := h p (by simp)
    simp only [findActive, hp, ite_false]
    exact ih (fun q hq => h q (by simp [hq]))

end WorkerPool

/-! ## The claims -/

/-- C4: aborting a queued task removes it from the queue and rejects its
promise with an "Aborted" error synchronously, and that task is never
posted to any executor afterwards, whatever the pool does next; aborting a
dispatched task rejects its promise immediately while leaving the queue,
the active map, the worker statuses and the posting history untouched, and
the executor's eventual reply for that id settles no promise — it only
performs the normal bookkeeping (drop the active entry, free the worker,
attempt the next dispatch). -/
theorem C4_abort_rejects_and_discards :
    (∀ (s : PoolState) (id : String) (task : WorkerTask) (rest : List WorkerTask),
      WorkerPool.removeFirstById id s.taskQueue = some (task, rest) →
      mget task.futureId s.futures = some FutureState.pending →
      task.futureId ∉ rest.map WorkerTask.futureId →
      task.futureId ∉ s.activeTasks.map (fun p => p.2.futureId) →
      task.futureId ∉ s.posted.map WorkerTask.futureId →
      task.futureId < s.nextFutureId →
      (WorkerPool.abort s id).taskQueue = rest ∧
      mget task.futureId (WorkerPool.abort s id).futures
        = some (FutureState.rejected "Aborted") ∧
      ∀ ops, task.futureId ∉
        (WorkerPool.runPool (WorkerPool.abort s id) ops).posted.map WorkerTask.futureId) ∧
    (∀ (s : PoolState) (id : String) (task : WorkerTask) (w value : ℕ),
      WorkerPool.removeFirstById id s.taskQueue = none →
      WorkerPool.findActive id s.activeTasks = some task →
      (∀ p ∈ s.futures, p.1 = task.futureId → p.2 = FutureState.pending) →
      mget task.futureId s.futures = some FutureState.pending →
      mget w s.activeTasks = some task →
      ((WorkerPool.abort s id).taskQueue = s.taskQueue ∧
       (WorkerPool.abort s id).activeTasks = s.activeTasks ∧
       (WorkerPool.abort s id).workerStatus = s.workerStatus ∧
       (WorkerPool.abort s id).posted = s.posted ∧
       mget task.futureId (WorkerPool.abort s id).futures
         = some (FutureState.rejected "Aborted")) ∧
      WorkerPool.onmessage (WorkerPool.abort s id) w task.id value
        = WorkerPool.processNext
            { WorkerPool.abort s id with
              activeTasks := mdel w (WorkerPool.abort s id).activeTasks,
              workerStatus := (WorkerPool.abort s id).workerStatus.set w false }) := by
  constructor
  · intro s id task rest hrm hfut hq ha hp hn
    have habort : WorkerPool.abort s id
        = { s with taskQueue := rest,
                   futures := WorkerPool.settleFuture s.futures task.futureId
                     (FutureState.rejected "Aborted") } := by
      unfold WorkerPool.abort
      rw [hrm]
    refine ⟨by rw [habort], ?_, ?_⟩
    · rw [habort]
      exact WorkerPool.mget_settleFuture_self hfut
    · intro ops
      have huntouched : (WorkerPool.abort s id).untouched task.futureId := by
        rw [habort]
        exact ⟨hq, ha, hp, hn⟩
      exact (WorkerPool.untouched_run ops huntouched).2.2.1
  · intro s id task w value hrm hfa hall hfut hactive
    have habort : WorkerPool.abort s id
        = { s with futures := WorkerPool.settleFuture s.futures task.futureId
                     (FutureState.rejected "Aborted") } := by
      unfold WorkerPool.abort
      rw [hrm, hfa]
    have hrejected : ∀ p ∈ (WorkerPool.abort s id).futures,
        p.1 = task.futureId → p.2 = FutureState.rejected "Aborted" := by
      rw [habort]
      exact WorkerPool.settleFuture_all (fun p hp h1 => Or.inl (hall p hp h1))
    constructor
    · refine ⟨by rw [habort], by rw [habort], by rw [habort], by rw [habort], ?_⟩
      rw [habort]
      exact WorkerPool.mget_settleFuture_self hfut
    · have hactive2 : mget w (WorkerPool.abort s id).activeTasks = some task := by
        rw [habort]
        exact hactive
      have hnopend : ∀ p ∈ (WorkerPool.abort s id).futures,
          p.1 = task.futureId → p.2 ≠ FutureState.pending := by
        intro p hp h1 hcontra
        have := hrejected p hp h1
        rw [hcontra] at this
        exact absurd this (by simp)
      unfold WorkerPool.onmessage
      rw [hactive2]
      dsimp only
      rw [if_pos rfl]
      rw [WorkerPool.settleFuture_of_not_pending hnopend]

theorem C4_witness :
    ((WorkerPool.abort (WorkerPool.process (WorkerPool.mkPool 0) "t" 5 1) "t").taskQueue = [] ∧
      mget 0 (WorkerPool.abort (WorkerPool.process (WorkerPool.mkPool 0) "t" 5 1) "t").futures
        = some (FutureState.rejected "Aborted") ∧
      0 ∉ (WorkerPool.runPool
          (WorkerPool.abort (WorkerPool.process (WorkerPool.mkPool 0) "t" 5 1) "t")
          [WorkerPool.PoolOp.messageOp 0 "t" 3,
           WorkerPool.PoolOp.procOp "x" 0 2]).posted.map WorkerTask.futureId) ∧
    (mget 0 (WorkerPool.abort (WorkerPool.process (WorkerPool.mkPool 1) "t" 5 1) "t").futures
        = some (FutureState.rejected "Aborted") ∧
      WorkerPool.onmessage
          (WorkerPool.abort (WorkerPool.process (WorkerPool.mkPool 1) "t" 5 1) "t") 0 "t" 3
        = WorkerPool.processNext
            { WorkerPool.abort (WorkerPool.process (WorkerPool.mkPool 1) "t" 5 1) "t" with
              activeTasks := mdel 0
                (WorkerPool.abort (WorkerPool.process (WorkerPool.mkPool 1) "t" 5 1) "t").activeTasks,
              workerStatus :=
                (WorkerPool.abort (WorkerPool.process (WorkerPool.mkPool 1) "t" 5 1) "t").workerStatus.set
                  0 false }) :=
  ⟨by
    have h := C4_abort_rejects_and_discards.1
      (WorkerPool.process (WorkerPool.mkPool 0) "t" 5 1) "t"
      { id := "t", priority := 1, payload := 5, futureId := 0 } []
      (by decide) (by decide) (by decide) (by decide) (by decide) (by decide)
    exact ⟨h.1, h.2.1, h.2.2 [WorkerPool.PoolOp.messageOp 0 "t" 3,
      WorkerPool.PoolOp.procOp "x" 0 2]⟩,
   by
    have h := C4_abort_rejects_and_discards.2
      (WorkerPool.process (WorkerPool.mkPool 1) "t" 5 1) "t"
      { id := "t", priority := 1, payload := 5, futureId := 0 } 0 3
      (by decide) (by decide) (by decide) (by decide) (by decide)
    exact ⟨h.1.2.2.2.2, h.2⟩⟩

/-- C5 counterexample (second revision): the decode of the cached pending
tile `"0-0-0"` is dispatched; `init` then clears the cache without
aborting the pool's in-flight task, so its promise is still pending; the
eventual reply for the no-longer-cached key runs `handleTileDecoded` on
the captured tile object, which initialises the global stats and bumps
the version counter — the response does not leave the global stats and
the CacheVersion counter unchanged. -/
theorem C5_counterexample :
    mget "0-0-0" c5AfterInit.tm.tiles = none ∧
    c5AfterInit.tm.hasGlobalStats = false ∧
    c5Reply.tm.hasGlobalStats = true ∧
    c5Reply.tm.globalMin = 5 ∧ c5Reply.tm.globalMax = 9 ∧
    c5Reply.tm.version = c5AfterInit.tm.version + 1 := by decide

/-- C5 (amended): in the first revision, `handleWorkerMessage` leaves the
whole manager state untouched for a `tile-decoded` response whose key is
not cached, and otherwise mutates only that key's entry.  In the second
revision, a reply whose promise is no longer pending when it arrives —
which covers every tile evicted or cancelled through `workerPool.abort`
(prune, setBands, the per-frame cancel loop) — leaves the manager state
entirely unchanged, and no reply ever re-inserts an absent key into the
cache; but a reply whose promise is still pending after its key was
dropped without an abort (as `init` does) still updates the global stats
and bumps the CacheVersion counter. -/
theorem C5_amended_stale_responses :
    (∀ (s : TMState) (id : String) (data : Option (List ℚ)) (mn mx : ℚ),
      (mget id s.tiles = none →
        TileManager.handleWorkerMessage s
          (TileManager.WorkerMsg.tileDecoded id data mn mx) = s) ∧
      (∀ k, k ≠ id →
        mget k (TileManager.handleWorkerMessage s
          (TileManager.WorkerMsg.tileDecoded id data mn mx)).tiles = mget k s.tiles)) ∧
    (∀ (sys : TMSys) (w : ℕ) (replyId : String) (data : Option (List ℚ)) (mn mx : ℚ),
      (mget w sys.pool.activeTasks = none →
        (TMSys.workerReply sys w replyId data mn mx).tm = sys.tm) ∧
      (∀ task, mget w sys.pool.activeTasks = some task →
        mget task.futureId sys.pool.futures ≠ some FutureState.pending →
        (TMSys.workerReply sys w replyId data mn mx).tm = sys.tm) ∧
      (∀ k, mget k sys.tm.tiles = none →
        mget k (TMSys.workerReply sys w replyId data mn mx).tm.tiles = none)) := by
  constructor
  · intro s id data mn mx
    constructor
    · intro h
      unfold TileManager.handleWorkerMessage
      dsimp only
      rw [h]
    · intro k hk
      unfold TileManager.handleWorkerMessage
      dsimp only
      cases hf : mget id s.tiles with
      | none => rfl
      | some tile =>
        cases data with
        | some d =>
          dsimp only
          by_cases hstats : (!s.hasGlobalStats) = true
          · rw [if_pos hstats]
            dsimp only [TileManager.uploadTile]
            exact mget_mset_ne _ hk s.tiles
          · rw [if_neg hstats]
            dsimp only [TileManager.uploadTile]
            exact mget_mset_ne _ hk s.tiles
        | none =>
          dsimp only
          exact mget_mset_ne _ hk s.tiles
  · intro sys w replyId data mn mx
    refine ⟨?_, ?_, ?_⟩
    · intro hnone
      unfold TMSys.workerReply
      dsimp only
      rw [hnone]
    · intro task hsome hnp
      unfold TMSys.workerReply
      dsimp only
      rw [hsome]
      dsimp only
      rw [if_neg (by rintro ⟨_, hp⟩; exact hnp hp)]
    · intro k hk
      unfold TMSys.workerReply
      dsimp only
      cases hw : mget w sys.pool.activeTasks with
      | none => exact hk
      | some task =>
        dsimp only
        by_cases hcond : task.id = replyId
            ∧ mget task.futureId sys.pool.futures = some FutureState.pending
        · rw [if_pos hcond]
          cases hcb : mget task.futureId sys.callbacks with
          | none =>
            cases data with
            | none => exact hk
            | some d => exact hk
          | some tile =>
            cases data with
            | none => exact hk
            | some d => exact TileManager.handleTileDecoded_no_insert sys.tm tile d mn mx k hk
        · rw [if_neg hcond]
          exact hk

theorem C5_witness :
    (mget "b" ({ baseTM with tiles := [("a", pruneTile 0)] } : TMState).tiles = none ∧
      TileManager.handleWorkerMessage { baseTM with tiles := [("a", pruneTile 0)] }
          (TileManager.WorkerMsg.tileDecoded "b" none 0 0)
        = { baseTM with tiles := [("a", pruneTile 0)] } ∧
      mget "a" (TileManager.handleWorkerMessage { baseTM with tiles := [("a", pruneTile 0)] }
          (TileManager.WorkerMsg.tileDecoded "b" (some [1]) 2 3)).tiles
        = mget "a" ({ baseTM with tiles := [("a", pruneTile 0)] } : TMState).tiles) ∧
    (mget 0 c5Aborted.pool.futures ≠ some FutureState.pending ∧
      (TMSys.workerReply c5Aborted 0 "t" (some [1]) 2 3).tm = c5Aborted.tm ∧
      mget "zz" (TMSys.workerReply c5Aborted 0 "t" (some [1]) 2 3).tm.tiles = none) :=
  ⟨⟨by decide,
    (C5_amended_stale_responses.1 { baseTM with tiles := [("a", pruneTile 0)] }
      "b" none 0 0).1 (by decide),
    (C5_amended_stale_responses.1 { baseTM with tiles := [("a", pruneTile 0)] }
      "b" (some [1]) 2 3).2 "a" (by decide)⟩,
   ⟨by decide,
    (C5_amended_stale_responses.2 c5Aborted 0 "t" (some [1]) 2 3).2.1
      { id := "t", priority := 1, payload := 0, futureId := 0 } (by decide) (by decide),
    (C5_amended_stale_responses.2 c5Aborted 0 "t" (some [1]) 2 3).2.2 "zz" (by decide)⟩⟩

/-- C7: the claim says the stored zoom never goes below `minZoom` after
`setZoom`; the source stores the argument unchanged, so at the default
`minZoom = 0.0001` the call `setZoom(0.00001)` leaves the viewport with
`zoom < minZoom`, contradicting the claim (and the repository's own
documentation of `minZoom` as the minimum allowed zoom level). -/
theorem C7_setZoom_stores_below_minZoom :
    (Viewport.setZoom (Viewport.mkViewport 800 600) (1 / 100000)).zoom = 1 / 100000 ∧
    (Viewport.setZoom (Viewport.mkViewport 800 600) (1 / 100000)).zoom
      < (Viewport.setZoom (Viewport.mkViewport 800 600) (1 / 100000)).minZoom := by
  constructor
  · rfl
  · norm_num [Viewport.setZoom, Viewport.mkViewport]

/-- C8: `zoomAt(factor, sx, sy)` multiplies the zoom by `factor` and moves
the center so that the world point that was under the screen point
`(sx, sy)` is still mapped to `(sx, sy)` by the documented world-to-screen
transform. -/
theorem C8_zoomAt_holds_cursor_point (v : Viewport) (factor sx sy : ℚ)
    (hz : 0 < v.zoom) (hf : 0 < factor) :
    (Viewport.zoomAt v factor sx sy).zoom = v.zoom * factor ∧
    Viewport.worldToScreen (Viewport.zoomAt v factor sx sy)
      (Viewport.screenToWorld v sx sy).1 (Viewport.screenToWorld v sx sy).2 = (sx, sy) := by
  have hz0 : v.zoom ≠ 0 := ne_of_gt hz
  have hzf : v.zoom * factor ≠ 0 := mul_ne_zero hz0 (ne_of_gt hf)
  refine ⟨rfl, ?_⟩
  unfold Viewport.worldToScreen Viewport.screenToWorld Viewport.zoomAt
  dsimp only
  rw [Prod.mk.injEq]
  constructor
  · field_simp
    ring
  · field_simp
    ring

theorem C8_witness :
    0 < (Viewport.mkViewport 800 600).zoom ∧ (0 : ℚ) < 2 ∧
    ((Viewport.zoomAt (Viewport.mkViewport 800 600) 2 100 50).zoom
        = (Viewport.mkViewport 800 600).zoom * 2 ∧
      Viewport.worldToScreen (Viewport.zoomAt (Viewport.mkViewport 800 600) 2 100 50)
        (Viewport.screenToWorld (Viewport.mkViewport 800 600) 100 50).1
        (Viewport.screenToWorld (Viewport.mkViewport 800 600) 100 50).2 = (100, 50)) :=
  ⟨by norm_num [Viewport.mkViewport], by norm_num,
   C8_zoomAt_holds_cursor_point (Viewport.mkViewport 800 600) 2 100 50
     (by norm_num [Viewport.mkViewport]) (by norm_num)⟩

/-- C9: every tile in the list returned by `getVisibleTiles` — the
synthetic background entry included — has `loaded = true` and a defined
bind group; pending tiles and tiles decoded without a resource never
appear in the returned list. -/
theorem C9_visible_tiles_loaded (s : TMState) (vp : Viewport) (now : ℤ) :
    ∀ t ∈ (TileManager.getVisibleTiles s vp now).visibleTiles,
      t.loaded = true ∧ t.bindGroup.isSome = true := by
  intro t ht
  have hbgP : ∀ u ∈ (match s.grayBindGroup with
      | some g =>
        [({ id := "background", x := 0, y := 0, z := -1, loaded := true,
            worldX := 0, worldY := 0, width := s.imageWidth, height := s.imageHeight,
            texture := none, bindGroup := some g, lastUsed := now,
            min? := none, max? := none } : Tile)]
      | none => ([] : List Tile)), u.loaded = true ∧ u.bindGroup.isSome = true := by
    cases s.grayBindGroup with
    | none => simp
    | some g =>
      intro u hu
      have : u = { id := "background", x := 0, y := 0, z := -1, loaded := true,
                   worldX := 0, worldY := 0, width := s.imageWidth, height := s.imageHeight,
                   texture := none, bindGroup := some g, lastUsed := now,
                   min? := none, max? := none } := by simpa using hu
      rw [this]
      exact ⟨rfl, rfl⟩
  unfold TileManager.getVisibleTiles at ht
  by_cases hE : s.levels.isEmpty
  · rw [if_pos hE] at ht
    exact hbgP t ht
  · rw [if_neg hE] at ht
    dsimp only at ht
    have hfold := foldl_inv
      (fun a : TileManager.FrameAcc => ∀ u ∈ a.visible,
        u.loaded = true ∧ u.bindGroup.isSome = true)
      (TileManager.visitLevel vp now (TileManager.getBestLevel s vp)
        ((s.levels.getD 0 TileManager.defaultLevel).width))
      (by
        intro a level hInv u hu
        rcases TileManager.visitLevel_visible vp now (TileManager.getBestLevel s vp)
          ((s.levels.getD 0 TileManager.defaultLevel).width) a level u hu with h | h
        · exact hInv u h
        · exact h)
      (stableSortBy (fun y x => decide (x.index ≤ y.index)) s.levels)
      { tiles := s.tiles,
        visible := (match s.grayBindGroup with
          | some g =>
            [({ id := "background", x := 0, y := 0, z := -1, loaded := true,
                worldX := 0, worldY := 0, width := s.imageWidth, height := s.imageHeight,
                texture := none, bindGroup := some g, lastUsed := now,
                min? := none, max? := none } : Tile)]
          | none => ([] : List Tile)),
        required := [], pending := [] }
      (by intro u hu; exact hbgP u hu)
    exact hfold t ht

theorem C9_witness :
    ({ id := "background", x := 0, y := 0, z := -1, loaded := true,
       worldX := 0, worldY := 0, width := 0, height := 0, texture := none,
       bindGroup := some 0, lastUsed := 5, min? := none, max? := none } : Tile).loaded = true ∧
    ({ id := "background", x := 0, y := 0, z := -1, loaded := true,
       worldX := 0, worldY := 0, width := 0, height := 0, texture := none,
       bindGroup := some 0, lastUsed := 5, min? := none,
       max? := none } : Tile).bindGroup.isSome = true :=
  C9_visible_tiles_loaded { baseTM with grayBindGroup := some 0 } (vpAtZoom 1) 5
    { id := "background", x := 0, y := 0, z := -1, loaded := true,
      worldX := 0, worldY := 0, width := 0, height := 0, texture := none,
      bindGroup := some 0, lastUsed := 5, min? := none, max? := none }
    (by decide)

/-- C10: `abort(id)` for an id that is neither queued nor active leaves the
pool state (queue, active map, worker statuses, futures) entirely
unchanged. -/
theorem C10_abort_unknown_id_noop (s : PoolState) (id : String)
    (hq : ∀ t ∈ s.taskQueue, ¬(t.id = id))
    (ha : ∀ p ∈ s.activeTasks, ¬(p.2.id = id)) :
    WorkerPool.abort s id = s := by
  unfold WorkerPool.abort
  rw [WorkerPool.removeFirstById_eq_none s.taskQueue hq,
    WorkerPool.findActive_eq_none s.activeTasks ha]

/-- C1 counterexample: with one worker, `process("t", _, 1)` dispatches the
task ("t" is active and the queue is empty); a second `process("t", _, 5)`
while "t" is still in flight pushes a fresh entry onto the queue, so a
submit for a dispatched id does change the pool's queue (and the same id is
now queued and in flight at once), contrary to the claim. -/
theorem C1_counterexample :
    (WorkerPool.findActive "t"
      (WorkerPool.process (WorkerPool.mkPool 1) "t" 0 1).activeTasks).isSome = true ∧
    (WorkerPool.process (WorkerPool.mkPool 1) "t" 0 1).taskQueue = [] ∧
    (WorkerPool.process (WorkerPool.process (WorkerPool.mkPool 1) "t" 0 1) "t" 0 5).taskQueue
      ≠ [] := by decide

/-- C1 (amended): submitting an id that is currently queued replaces the
queued entry's priority and payload in place, leaving exactly one queued
task with that id (carrying the new priority and payload); submitting an
id that is currently dispatched leaves the active map and the in-flight
task's promise untouched, but enqueues a new task under that id, so the
queue gains an entry and the same id can be queued and in flight
simultaneously.  Both parts are stated with every worker busy, matching
the claim's "before dispatch". -/
theorem C1_amended_dedup :
    (∀ (s : PoolState) (id : String) (payload : ℕ) (priority : ℚ),
      (∀ b ∈ s.workerStatus, b = true) →
      s.taskQueue.countP (fun t => decide (t.id = id)) = 1 →
      (WorkerPool.process s id payload priority).taskQueue.filter
          (fun t => decide (t.id = id))
        = [{ id := id, priority := priority, payload := payload,
             futureId := s.nextFutureId }]) ∧
    (∀ (s : PoolState) (id : String) (payload : ℕ) (priority : ℚ) (task : WorkerTask),
      (∀ b ∈ s.workerStatus, b = true) →
      WorkerPool.findActive id s.activeTasks = some task →
      s.taskQueue.countP (fun t => decide (t.id = id)) = 0 →
      mget task.futureId s.futures = some FutureState.pending →
      task.futureId ≠ s.nextFutureId →
      (WorkerPool.process s id payload priority).activeTasks = s.activeTasks ∧
      mget task.futureId (WorkerPool.process s id payload priority).futures
        = some FutureState.pending ∧
      (WorkerPool.process s id payload priority).taskQueue.countP
        (fun t => decide (t.id = id)) = 1) := by
  have hstate : ∀ (s : PoolState) (id : String) (payload : ℕ) (priority : ℚ),
      (∀ b ∈ s.workerStatus, b = true) →
      WorkerPool.process s id payload priority
        = { s with
            taskQueue := stableSortBy (fun y x => decide (x.priority ≤ y.priority))
              (WorkerPool.upsertTask
                { id := id, priority := priority, payload := payload,
                  futureId := s.nextFutureId } s.taskQueue),
            futures := s.futures ++ [(s.nextFutureId, FutureState.pending)],
            nextFutureId := s.nextFutureId + 1 } := by
    intro s id payload priority hbusy
    unfold WorkerPool.process
    exact WorkerPool.processNext_of_all_busy hbusy
  constructor
  · intro s id payload priority hbusy hcount
    rw [hstate s id payload priority hbusy]
    have hmem : ∃ t ∈ s.taskQueue, t.id = id := by
      have hpos : 0 < s.taskQueue.countP (fun t => decide (t.id = id)) := by omega
      rcases List.countP_pos_iff.mp hpos with ⟨t, ht, hp⟩
      exact ⟨t, ht, of_decide_eq_true hp⟩
    have hcount2 : (WorkerPool.upsertTask
        { id := id, priority := priority, payload := payload,
          futureId := s.nextFutureId } s.taskQueue).countP
          (fun t => decide (t.id = id)) = 1 := by
      rw [WorkerPool.countP_upsertTask_of_mem
        { id := id, priority := priority, payload := payload,
          futureId := s.nextFutureId } rfl s.taskQueue hmem]
      exact hcount
    have hcount3 : (stableSortBy (fun y x => decide (x.priority ≤ y.priority))
        (WorkerPool.upsertTask
          { id := id, priority := priority, payload := payload,
            futureId := s.nextFutureId } s.taskQueue)).countP
          (fun t => decide (t.id = id)) = 1 := by
      rw [(stableSortBy_perm _ _).countP_eq]
      exact hcount2
    exact countP_filter_eq_singleton _ hcount3 _
      (mem_stableSortBy.mpr (WorkerPool.self_mem_upsertTask _ s.taskQueue))
      (by simp)
  · intro s id payload priority task hbusy hactive hcount hfut hfresh
    rw [hstate s id payload priority hbusy]
    refine ⟨rfl, ?_, ?_⟩
    · exact mget_append_left s.futures _ hfut
    · have hne : ∀ t ∈ s.taskQueue, ¬(t.id = id) := by
        intro t ht hid
        have h0 := List.countP_eq_zero.mp hcount t ht
        simp [hid] at h0
      rw [(stableSortBy_perm _ _).countP_eq,
        WorkerPool.upsertTask_of_all_ne
          { id := id, priority := priority, payload := payload,
            futureId := s.nextFutureId } s.taskQueue hne,
        List.countP_append, hcount]
      simp

theorem C1_witness :
    ((WorkerPool.process (WorkerPool.process (WorkerPool.mkPool 1) "u" 0 9) "t" 7 1).taskQueue.countP
        (fun t => decide (t.id = "t")) = 1 ∧
      (WorkerPool.process
          (WorkerPool.process (WorkerPool.process (WorkerPool.mkPool 1) "u" 0 9) "t" 7 1)
          "t" 8 5).taskQueue.filter (fun t => decide (t.id = "t"))
        = [{ id := "t", priority := 5, payload := 8, futureId := 2 }]) ∧
    ((WorkerPool.process (WorkerPool.process (WorkerPool.mkPool 1) "t" 0 1) "t" 0 5).activeTasks
        = (WorkerPool.process (WorkerPool.mkPool 1) "t" 0 1).activeTasks ∧
      mget 0 (WorkerPool.process (WorkerPool.process (WorkerPool.mkPool 1) "t" 0 1) "t" 0 5).futures
        = some FutureState.pending ∧
      (WorkerPool.process (WorkerPool.process (WorkerPool.mkPool 1) "t" 0 1) "t" 0 5).taskQueue.countP
        (fun t => decide (t.id = "t")) = 1) :=
  ⟨⟨by decide,
    C1_amended_dedup.1 (WorkerPool.process (WorkerPool.process (WorkerPool.mkPool 1) "u" 0 9) "t" 7 1)
      "t" 8 5 (by decide) (by decide)⟩,
   C1_amended_dedup.2 (WorkerPool.process (WorkerPool.mkPool 1) "t" 0 1) "t" 0 5
     { id := "t", priority := 1, payload := 0, futureId := 0 }
     (by decide) (by decide) (by decide) (by decide) (by decide)⟩

/-- C2 counterexample: a cache of 501 tiles all carrying the active
timestamp is over the limit, yet `prune` removes nothing (the fail-safe
skips every entry), so it does not remove the
`cacheSize - (CACHE_LIMIT - BUFFER) = 51` tiles the claim requires (which
would leave 450). -/
theorem C2_counterexample :
    500 < allActive501.tiles.length ∧
    ¬((TileManager.prune allActive501 7).tiles.length = 450) := by
  have hlen : allActive501.tiles.length = 501 := by decide
  have hnd : (allActive501.tiles.map Prod.fst).Nodup := allActive501_keys_nodup
  have hcnt : allActive501.tiles.countP (fun p => decide (¬p.2.lastUsed = 7)) = 0 := by
    decide
  have hf := TileManager.prune_length_formula allActive501 7 hnd (by omega)
  rw [hlen, hcnt] at hf
  constructor
  · omega
  · rw [hf]
    norm_num

/-- C2 (amended): at or below `CACHE_LIMIT = 500` tiles, `prune` is a
no-op.  Above the limit it removes exactly
`min(cacheSize - (CACHE_LIMIT - BUFFER), number of tiles with
lastUsedTimestamp ≠ activeTimestamp)` tiles (with `BUFFER = 50`), chosen
as those with the smallest `lastUsedTimestamp` while skipping every tile
stamped `activeTimestamp`, and no tile with `lastUsedTimestamp =
activeTimestamp` is ever removed.  In the specification's 510-tile
scenario the pruned cache is exactly the original one with the oldest 60
non-active tiles dropped (450 remain). -/
theorem C2_amended_prune :
    (∀ (s : TMState) (activeTime : ℤ),
      s.tiles.length ≤ 500 → TileManager.prune s activeTime = s) ∧
    (∀ (s : TMState) (activeTime : ℤ) (k : String) (t : Tile),
      (s.tiles.map Prod.fst).Nodup →
      mget k s.tiles = some t → t.lastUsed = activeTime →
      mget k (TileManager.prune s activeTime).tiles = some t) ∧
    (∀ (s : TMState) (activeTime : ℤ),
      (s.tiles.map Prod.fst).Nodup → 500 < s.tiles.length →
      (TileManager.prune s activeTime).tiles.length
        = s.tiles.length - min (s.tiles.length - 450)
            (s.tiles.countP (fun p => decide (¬p.2.lastUsed = activeTime)))) ∧
    (TileManager.prune lruScenario510 1000).tiles = lruScenario510.tiles.drop 60 := by
  refine ⟨?_, ?_, ?_, ?_⟩
  · intro s activeTime h
    unfold TileManager.prune
    rw [if_pos (by unfold TileManager.CACHE_LIMIT; omega)]
  · intro s activeTime k t hnd hget hact
    exact TileManager.prune_keeps_active s activeTime k t hnd hget hact
  · intro s activeTime hnd hgt
    exact TileManager.prune_length_formula s activeTime hnd hgt
  · have hpair :=
      pairwise_of_adjacentB
        (fun y x : String × Tile => decide (y.2.lastUsed ≤ x.2.lastUsed))
        (fun a b c hab hbc =>
          decide_eq_true (le_trans (of_decide_eq_true hab) (of_decide_eq_true hbc)))
        lruScenario510.tiles (by decide)
    have hsort := stableSortBy_of_pairwise
      (fun y x : String × Tile => decide (y.2.lastUsed ≤ x.2.lastUsed))
      lruScenario510.tiles hpair
    unfold TileManager.prune
    rw [if_neg (by decide)]
    dsimp only
    rw [hsort]
    decide

theorem C2_witness :
    (TileManager.prune baseTM 0 = baseTM ∧
      mget "a" (TileManager.prune { baseTM with tiles := [("a", pruneTile 7)] } 7).tiles
        = some (pruneTile 7)) ∧
    (TileManager.prune allActive501 7).tiles.length
      = allActive501.tiles.length - min (allActive501.tiles.length - 450)
          (allActive501.tiles.countP (fun p => decide (¬p.2.lastUsed = 7))) :=
  ⟨⟨C2_amended_prune.1 baseTM 0 (by decide),
    C2_amended_prune.2.1 { baseTM with tiles := [("a", pruneTile 7)] } 7 "a"
      (pruneTile 7) (by decide) (by decide) (by decide)⟩,
   C2_amended_prune.2.2.1 allActive501 7 allActive501_keys_nodup (by decide)⟩

/-- C3: with no levels loaded `getBestLevel` returns 0; for a non-empty
level list with strictly decreasing widths and zoom > 0 it returns the
largest index `i` such that `imageWidth / levels[j].width ≤ 1/zoom` for
every `j ≤ i` (walking finest to coarsest and stopping at the first level
whose resolution exceeds the target), whenever such an index exists; for
widths `[4096, 2048, 1024, 512]` and `imageWidth = 4096` it returns 0 at
zoom 1 and 1 at zoom 0.3. -/
theorem C3_getBestLevel_selects_finest_fitting :
    (∀ (s : TMState) (vp : Viewport), s.levels = [] → TileManager.getBestLevel s vp = 0) ∧
    (∀ (s : TMState) (vp : Viewport), 0 < vp.zoom →
      List.Pairwise (fun a b => b.width < a.width) s.levels →
      (∃ i, prefixGood s vp i) →
      prefixGood s vp (TileManager.getBestLevel s vp) ∧
        ∀ i, prefixGood s vp i → i ≤ TileManager.getBestLevel s vp) ∧
    TileManager.getBestLevel lodTM (vpAtZoom 1) = 0 ∧
    TileManager.getBestLevel lodTM (vpAtZoom (3 / 10)) = 1 := by
  refine ⟨?_, ?_, by decide, by decide⟩
  · intro s vp h
    unfold TileManager.getBestLevel
    simp [h]
  · intro s vp hz hchain hex
    obtain ⟨i0, hi0len, hi0all⟩ := hex
    have hres : ∀ j, (TileManager.levelOk s.imageWidth (1 / vp.zoom)
        (s.levels.getD j TileManager.defaultLevel) = true) ↔ resAt s j ≤ 1 / vp.zoom := by
      intro j
      simp [TileManager.levelOk, resAt]
    have hklen : (s.levels.takeWhile
        (TileManager.levelOk s.imageWidth (1 / vp.zoom))).length ≤ s.levels.length :=
      takeWhile_length_le _ s.levels
    have hk1 : 1 ≤ (s.levels.takeWhile
        (TileManager.levelOk s.imageWidth (1 / vp.zoom))).length := by
      by_contra h0
      have hk0 : (s.levels.takeWhile
          (TileManager.levelOk s.imageWidth (1 / vp.zoom))).length = 0 := by omega
      have hblt : (s.levels.takeWhile
          (TileManager.levelOk s.imageWidth (1 / vp.zoom))).length < s.levels.length := by
        omega
      have hbound := takeWhile_boundary
        (TileManager.levelOk s.imageWidth (1 / vp.zoom)) TileManager.defaultLevel
        s.levels hblt
      rw [hk0] at hbound
      have hok := (hres 0).mpr (hi0all 0 (Nat.zero_le i0))
      rw [hok] at hbound
      exact absurd hbound (by simp)
    have hval : TileManager.getBestLevel s vp = (s.levels.takeWhile
        (TileManager.levelOk s.imageWidth (1 / vp.zoom))).length - 1 := by
      rw [TileManager.getBestLevel_eq]
      rw [if_neg (by omega)]
    constructor
    · constructor
      · rw [hval]; omega
      · intro j hj
        rw [hval] at hj
        have hjk : j < (s.levels.takeWhile
            (TileManager.levelOk s.imageWidth (1 / vp.zoom))).length := by omega
        exact (hres j).mp (takeWhile_pred_of_lt _ _ s.levels j hjk)
    · intro i hi
      obtain ⟨hilen, hiall⟩ := hi
      rw [hval]
      by_contra hgt
      have hkle : (s.levels.takeWhile
          (TileManager.levelOk s.imageWidth (1 / vp.zoom))).length ≤ i := by omega
      have hkl : (s.levels.takeWhile
          (TileManager.levelOk s.imageWidth (1 / vp.zoom))).length < s.levels.length := by
        omega
      have hbound := takeWhile_boundary
        (TileManager.levelOk s.imageWidth (1 / vp.zoom)) TileManager.defaultLevel
        s.levels hkl
      have hok := (hres _).mpr (hiall _ hkle)
      rw [hok] at hbound
      exact absurd hbound (by simp)

theorem C3_witness :
    prefixGood lodTM (vpAtZoom 1) 0 ∧
    prefixGood lodTM (vpAtZoom 1) (TileManager.getBestLevel lodTM (vpAtZoom 1)) :=
  ⟨by decide,
   (C3_getBestLevel_selects_finest_fitting.2.1 lodTM (vpAtZoom 1)
     (by norm_num [vpAtZoom]) (by decide) ⟨0, by decide⟩).1⟩

/-- C6: on a non-empty ascending sample list with clip percentages in
`[0, 100]`, the statistics pass computes exactly the spec formula —
`lowIndex = floor(count*clipLow/100)`, `highIndex =
floor(count*clipHigh/100)`, `min = samples[lowIndex]` (fallback
`samples[0]`), `max = samples[highIndex]` (fallback last element), padding
by `range*pad/100`, and `max = min + 0.0001` when degenerate.  For 100
samples `0..99` with `clipLow=1, clipHigh=99, padLow=50, padHigh=20` the
stored range is `min = -48`, `max = 118.6`. -/
theorem C6_adra_percentile_arithmetic :
    (∀ (samples : List ℚ) (opts : ADRAOptions) (current : ℚ × ℚ),
      samples ≠ [] →
      List.Pairwise (· ≤ ·) samples →
      0 ≤ opts.clipLow → opts.clipLow ≤ 100 →
      0 ≤ opts.clipHigh → opts.clipHigh ≤ 100 →
      ADRAAnalyzer.calculateStatistics samples opts current
        = ADRAAnalyzer.rangeSpec samples opts) ∧
    ADRAAnalyzer.calculateStatistics ((List.range 100).map (fun n => (n : ℚ)))
        { clipLow := 1, clipHigh := 99, padLow := 50, padHigh := 20 } (0, 1)
      = (-48, 593 / 5) := by
  constructor
  · intro samples opts current h1 h2 hcl0 hcl1 hch0 hch1
    have hsort : stableSortBy (fun y x => decide (y ≤ x)) samples = samples :=
      stableSortBy_of_pairwise _ _ (h2.imp (fun h => decide_eq_true h))
    have hne : samples.isEmpty = false := by
      cases samples with
      | nil => exact absurd rfl h1
      | cons a as => rfl
    unfold ADRAAnalyzer.calculateStatistics ADRAAnalyzer.rangeSpec
    rw [hne]
    rw [if_neg (by simp : ¬(false = true))]
    rw [hsort]
    rw [min_eq_right hcl1, max_eq_right hcl0, min_eq_right hch1, max_eq_right hch0]
    dsimp only
    rw [mul_div_assoc, mul_div_assoc]
  · decide

theorem C6_witness :
    ([(0 : ℚ), 1] ≠ [] ∧ List.Pairwise (· ≤ ·) [(0 : ℚ), 1]) ∧
    ADRAAnalyzer.calculateStatistics [(0 : ℚ), 1]
        { clipLow := 0, clipHigh := 100, padLow := 0, padHigh := 0 } (0, 1)
      = ADRAAnalyzer.rangeSpec [(0 : ℚ), 1]
        { clipLow := 0, clipHigh := 100, padLow := 0, padHigh := 0 } :=
  ⟨⟨by decide, by decide⟩,
   C6_adra_percentile_arithmetic.1 [(0 : ℚ), 1]
     { clipLow := 0, clipHigh := 100, padLow := 0, padHigh := 0 } (0, 1)
     (by decide) (by decide) (by norm_num) (by norm_num) (by norm_num) (by norm_num)⟩

theorem C10_witness :
    (∀ t ∈ (WorkerPool.process (WorkerPool.mkPool 1) "u" 0 1).taskQueue, ¬(t.id = "t")) ∧
    (∀ p ∈ (WorkerPool.process (WorkerPool.mkPool 1) "u" 0 1).activeTasks, ¬(p.2.id = "t")) ∧
    WorkerPool.abort (WorkerPool.process (WorkerPool.mkPool 1) "u" 0 1) "t"
      = WorkerPool.process (WorkerPool.mkPool 1) "u" 0 1 :=
  ⟨by decide, by decide,
   C10_abort_unknown_id_noop (WorkerPool.process (WorkerPool.mkPool 1) "u" 0 1) "t"
     (by decide) (by decide)⟩

end Cog
